import Mathlib

/-! Arduino-IRremote: Pronto Hex codec and MagiQuest decoder

A shallow embedding of `src/irPronto.cpp` and `src/ir_MagiQuest.cpp`.

Conventions of the embedding:

* machine integers are natural numbers, reduced modulo `2 ^ width` at the places where the
  C++ arithmetic can wrap;
* `unsigned int` is `env.uintBits` bits wide (16 on AVR, 32 on ARM and ESP);
* members of a struct are stored least significant byte first, each at the next multiple of
  the alignment of its type; the alignment of `uint32_t` is `env.uint32Align` bytes (1 on AVR,
  4 on ARM and ESP);
* undefined behaviour (a division by zero, a read outside an array) and a loop that never
  ends are results of their own, `Except.error` with a `Fault`;
* output towards the hardware (`sendRaw`, `delay`, `mark`, `space`) is a list of events.
-/

set_option autoImplicit false

namespace IRremote

/-! ## Environment: what `IRremote.h` declares -/

/-- Modelled from the spec: the constants and macros that `IRremote.h` declares and the two
source files use (`MICROS_PER_TICK`, the "fixed tick-to-microsecond conversion factor";
`MARK_EXCESS_MICROS`, the "fixed timing-offset compensation"; `MATCH_MARK`, the period matcher
with "the matcher's standard tolerance"; the flag `IRDATA_FLAGS_IS_OLD_DECODER`), together with
the widths of `unsigned int` and `long` and the alignment of `uint32_t` on the target. The
header is not part of the sources, so they are parameters of the embedding. -/
structure Env where
  /-- Width of `unsigned int` in bits. -/
  uintBits : Nat
  /-- Width of `long` in bits. -/
  longBits : Nat
  /-- Alignment of `uint32_t` in bytes: 1, 2 or 4. -/
  uint32Align : Nat
  /-- Microseconds per tick of the capture timer. -/
  MICROS_PER_TICK : Nat
  /-- Compensation of the receiver's mark excess, in microseconds. -/
  MARK_EXCESS_MICROS : Nat
  /-- The matcher `MATCH_MARK(measured_ticks, desired_us)`. -/
  MATCH_MARK : Nat → Nat → Bool
  /-- The flag stored by decoders that still fill the old result structure. -/
  IRDATA_FLAGS_IS_OLD_DECODER : Nat

/-- The ways in which an execution leaves defined behaviour. -/
inductive Fault where
  | divisionByZero
  | outOfBounds
  | nonTermination
  deriving DecidableEq

instance instDecidableEqExcept {ε α : Type} [DecidableEq ε] [DecidableEq α] :
    DecidableEq (Except ε α)
  | .ok a, .ok b => if h : a = b then isTrue (by rw [h]) else isFalse (by simpa using h)
  | .error a, .error b => if h : a = b then isTrue (by rw [h]) else isFalse (by simpa using h)
  | .ok _, .error _ => isFalse (by simp)
  | .error _, .ok _ => isFalse (by simp)

/-- Unsigned division as C++ evaluates it: a zero divisor is undefined behaviour. -/
def udiv (a b : Nat) : Except Fault Nat :=
  if b = 0 then .error .divisionByZero else .ok (a / b)

/-- Read of element `i` of an array that holds the elements of `buf`. -/
def readAt (buf : List Nat) (i : Nat) : Except Fault Nat :=
  match buf[i]? with
  | some v => .ok v
  | none => .error .outOfBounds

/-! ## MagiQuest (`ir_MagiQuest.cpp`) -/

/-- Byte offset of the member `cmd.wand_id` in the union `magiquest_t`. The struct is declared
without a packing attribute, so behind the two bytes of `magnitude` the member `wand_id` lies
at the next multiple of the alignment of `uint32_t`: at offset 2 for an alignment of 1 or 2
bytes, at offset 4 for an alignment of 4 bytes. -/
def magiquest_t.wand_id_offset (env : Env) : Nat :=
  (2 + env.uint32Align - 1) / env.uint32Align * env.uint32Align

/-- The member `cmd.wand_id` of the union `magiquest_t`, read from `llword`: the four bytes
from `wand_id_offset` on, least significant byte first. With offset 2 these are bits 16..47 of
`llword` (the layout of the source's comment, "pad the struct out to 64 bits so we can union
with llword"), with offset 4 bits 32..63. -/
def magiquest_t.wand_id (env : Env) (llword : Nat) : Nat :=
  (llword / 2 ^ (8 * magiquest_t.wand_id_offset env)) % 2 ^ 32

/-- The member `cmd.magnitude` of the union `magiquest_t`, read from `llword`: the first two
bytes, bits 0..15. -/
def magiquest_t.magnitude (llword : Nat) : Nat := llword % 2 ^ 16

def MAGIQUEST_MAGNITUDE_BITS : Nat := 16
def MAGIQUEST_WAND_ID_BITS : Nat := 32
def MAGIQUEST_BITS : Nat := MAGIQUEST_MAGNITUDE_BITS + MAGIQUEST_WAND_ID_BITS
def MAGIQUEST_PERIOD : Nat := 1150
def MAGIQUEST_UNIT : Nat := 288
def MAGIQUEST_ONE_MARK : Nat := 2 * MAGIQUEST_UNIT
def MAGIQUEST_ONE_SPACE : Nat := 2 * MAGIQUEST_UNIT
def MAGIQUEST_ZERO_MARK : Nat := MAGIQUEST_UNIT
def MAGIQUEST_ZERO_SPACE : Nat := 3 * MAGIQUEST_UNIT

/-- The values of `decode_type_t` that the decoder distinguishes. -/
inductive decode_type_t where
  | UNKNOWN
  | MAGIQUEST
  | OTHER
  deriving DecidableEq

/-- The receiver object: the capture (`results.rawbuf`, `results.rawlen`) and the fields the
MagiQuest decoder writes (`results.value`, `results.magnitude`, `decodedIRData.protocol`,
`decodedIRData.numberOfBits`, `decodedIRData.flags`). `rawbuf` lists the elements of the
buffer; `rawlen` is the separate counter the code compares and loops on. -/
structure IRrecv where
  rawbuf : List Nat
  rawlen : Nat
  value : Nat
  magnitude : Nat
  protocol : decode_type_t
  numberOfBits : Nat
  flags : Nat
  deriving DecidableEq

/-- The `while (offset + 1 < results.rawlen)` loop of `decodeMagiQuest`. The result is `none`
when a pair fails `MATCH_MARK` (the `return false` inside the loop) and the final
`(offset, data.llword)` otherwise. `offset` grows by 2 in every iteration, so `rawlen`
iterations of fuel are never used up. -/
def decodeMagiQuestLoop (env : Env) (rawbuf : List Nat) (rawlen : Nat) :
    Nat → Nat → Nat → Except Fault (Option (Nat × Nat))
  | 0, offset, llword =>
    if offset + 1 < rawlen then .error .nonTermination else .ok (some (offset, llword))
  | fuel + 1, offset, llword =>
    if offset + 1 < rawlen then do
      let mark_ ← readAt rawbuf offset
      let space_ ← readAt rawbuf (offset + 1)
      let ratio_ ← udiv space_ mark_
      if env.MATCH_MARK ((space_ + mark_) % 2 ^ env.uintBits) MAGIQUEST_PERIOD then
        if ratio_ > 1 then
          decodeMagiQuestLoop env rawbuf rawlen fuel (offset + 2) ((llword <<< 1) % 2 ^ 64)
        else
          decodeMagiQuestLoop env rawbuf rawlen fuel (offset + 2)
            (((llword <<< 1) % 2 ^ 64) ||| 1)
      else
        .ok none
    else
      .ok (some (offset, llword))

/-- The function `IRrecv::decodeMagiQuest()`: the returned flag and the receiver afterwards. -/
def decodeMagiQuest (env : Env) (s : IRrecv) : Except Fault (Bool × IRrecv) :=
  if s.rawlen ≠ 2 * MAGIQUEST_BITS + 6 then
    .ok (false, s)
  else do
    match ← decodeMagiQuestLoop env s.rawbuf s.rawlen s.rawlen 1 0 with
    | none => .ok (false, s)
    | some (offset, llword) =>
      .ok (true,
        { s with
          protocol := decode_type_t.MAGIQUEST
          numberOfBits := (offset / 2) % 2 ^ 8
          value := magiquest_t.wand_id env llword
          magnitude := magiquest_t.magnitude llword
          flags := env.IRDATA_FLAGS_IS_OLD_DECODER })

/-- One call of `mark(us)` or `space(us)` on the sender. -/
inductive Pulse where
  | mark (us : Nat)
  | space (us : Nat)
  deriving DecidableEq

/-- Duration of a pulse in microseconds. -/
def Pulse.micros : Pulse → Nat
  | .mark us => us
  | .space us => us

/-- The pulses for the low `nbits` bits of `data`, most significant bit first. -/
def pulseDistanceWidthBits (oneMark oneSpace zeroMark zeroSpace data : Nat) : Nat → List Pulse
  | 0 => []
  | n + 1 =>
    (if data.testBit n then [Pulse.mark oneMark, Pulse.space oneSpace]
      else [Pulse.mark zeroMark, Pulse.space zeroSpace])
      ++ pulseDistanceWidthBits oneMark oneSpace zeroMark zeroSpace data n

/-- Modelled from the spec: `IRsend::sendPulseDistanceWidthData`, which `IRremote.h` declares
and the sources only call (always most significant bit first). "Each bit maps to one of two
fixed (mark,space) duration pairs", sent "most-significant-bit first"; with `sendStopBit` a
final stop mark of the zero mark's length follows. -/
def sendPulseDistanceWidthData (oneMark oneSpace zeroMark zeroSpace data nbits : Nat)
    (sendStopBit : Bool) : List Pulse :=
  pulseDistanceWidthBits oneMark oneSpace zeroMark zeroSpace data nbits
    ++ (if sendStopBit then [Pulse.mark zeroMark] else [])

/-- The function `IRsend::sendMagiQuest`: the pulses between `noInterrupts()` and
`interrupts()`. -/
def sendMagiQuest (wand_id magnitude : Nat) : List Pulse :=
  sendPulseDistanceWidthData MAGIQUEST_ONE_MARK MAGIQUEST_ONE_SPACE MAGIQUEST_ZERO_MARK
      MAGIQUEST_ZERO_SPACE 0 2 false
    ++ sendPulseDistanceWidthData MAGIQUEST_ONE_MARK MAGIQUEST_ONE_SPACE MAGIQUEST_ZERO_MARK
      MAGIQUEST_ZERO_SPACE wand_id MAGIQUEST_WAND_ID_BITS false
    ++ sendPulseDistanceWidthData MAGIQUEST_ONE_MARK MAGIQUEST_ONE_SPACE MAGIQUEST_ZERO_MARK
      MAGIQUEST_ZERO_SPACE magnitude MAGIQUEST_MAGNITUDE_BITS true

/-- The raw sequence of a capture of `pulses`: the leading gap, then every duration as a tick
count. -/
def rawOfPulses (env : Env) (gap : Nat) (pulses : List Pulse) : List Nat :=
  gap :: pulses.map (fun p => p.micros / env.MICROS_PER_TICK)

/-- An environment with the values of IRremote's default configuration: 50 microseconds per
tick, 100 microseconds of mark excess, a tolerance of 25 percent in `MATCH_MARK`, 16-bit
`unsigned int`, 32-bit `long` and no alignment beyond one byte (AVR). It is the concrete input
of the evaluated examples. -/
def avrEnv : Env where
  uintBits := 16
  longBits := 32
  uint32Align := 1
  MICROS_PER_TICK := 50
  MARK_EXCESS_MICROS := 100
  MATCH_MARK := fun measured desired =>
    decide (3 * (desired + 100) / (4 * 50) ≤ measured
      ∧ measured ≤ 5 * (desired + 100) / (4 * 50) + 1)
  IRDATA_FLAGS_IS_OLD_DECODER := 0x80

/-- The same configuration on a 32-bit target: 32-bit `unsigned int` and `uint32_t` aligned to
4 bytes (ARM, ESP). -/
def armEnv : Env :=
  { avrEnv with uintBits := 32, uint32Align := 4 }

/-- A receiver with an empty capture and no decoded value. -/
def IRrecv.empty : IRrecv where
  rawbuf := []
  rawlen := 0
  value := 0
  magnitude := 0
  protocol := decode_type_t.UNKNOWN
  numberOfBits := 0
  flags := 0

/-! ## Pronto Hex (`irPronto.cpp`) -/

def MICROSECONDS_T_MAX : Nat := 0xFFFF
def learnedToken : Nat := 0x0000
def learnedNonModulatedToken : Nat := 0x0100
def bitsInHexadecimal : Nat := 4
def digitsInProntoNumber : Nat := 4
def numbersInPreamble : Nat := 4
def hexMask : Nat := 0xF
def referenceFrequency : Nat := 4145146
def fallbackFrequency : Nat := 64767
def microsecondsInSeconds : Nat := 1000000
def PRONTO_DEFAULT_GAP : Nat := 45000

/-- The function `toFrequencyKHz(uint16_t code)`. The arithmetic is 32-bit and the result is
at most 4145, so nothing wraps; a zero `code` divides by zero. -/
def toFrequencyKHz (code : Nat) : Except Fault Nat := do
  let q ← udiv referenceFrequency code
  pure ((q + 500) / 1000)

/-- One call of the sender's primitives by `sendPronto`: `sendRaw(buf, len, khz)`, recorded
with the `len` durations it is handed, and `delay(ms)`. -/
inductive Event where
  | sendRaw (durations : List Nat) (khz : Nat)
  | delay (ms : Nat)
  deriving DecidableEq

/-- An execution of `sendPronto`: the calls made, in order, and the fault that stopped it, if
one did. -/
structure Run where
  trace : List Event
  fault : Option Fault
  deriving DecidableEq

/-- The local `timebase` of `sendPronto` (line 58): the product and the sum are `uint32_t`,
the quotient is stored in an `unsigned int`. -/
def prontoTimebase (env : Env) (code : Nat) : Nat :=
  ((microsecondsInSeconds * code % 2 ^ 32 + referenceFrequency / 2) % 2 ^ 32
    / referenceFrequency) % 2 ^ env.uintBits

/-- The value stored in `durations[i]` for the data element `e` (lines 86 and 87). -/
def prontoDuration (e timebase : Nat) : Nat :=
  let duration := e * timebase % 2 ^ 32
  if duration ≤ MICROSECONDS_T_MAX then duration else MICROSECONDS_T_MAX

/-- The loop that fills `durations` (lines 85 to 88): `count` more iterations from index `i`. -/
def prontoDurations (env : Env) (data : List Nat) (timebase : Nat) :
    Nat → Nat → Except Fault (List Nat)
  | 0, _ => .ok []
  | count + 1, i => do
    let e ← readAt data ((i + numbersInPreamble) % 2 ^ env.uintBits)
    let rest ← prontoDurations env data timebase count (i + 1)
    pure (prontoDuration e timebase :: rest)

/-- What `sendPronto` has computed when it starts to transmit. -/
structure ProntoPlan where
  khz : Nat
  intros : Nat
  repeats : Nat
  durations : List Nat
  deriving DecidableEq

/-- Lines 58 to 88 of `sendPronto(const uint16_t *data, unsigned int size, ...)`: the preamble is
read and checked and the durations are computed; `none` is one of the two silent returns. -/
def prontoPrepare (env : Env) (data : List Nat) (size : Nat) :
    Except Fault (Option ProntoPlan) := do
  let code ← readAt data 1
  let timebase := prontoTimebase env code
  let token ← readAt data 0
  let khz? ←
    if token = learnedToken then (do let k ← toFrequencyKHz code; pure (some k))
    else if token = learnedNonModulatedToken then pure (some 0)
    else pure none
  match khz? with
  | none => pure none
  | some khz =>
    let introPairs ← readAt data 2
    let intros := 2 * introPairs % 2 ^ env.uintBits
    let repeatPairs ← readAt data 3
    let repeats := 2 * repeatPairs % 2 ^ env.uintBits
    if (numbersInPreamble + intros + repeats) % 2 ^ env.uintBits ≠ size then
      pure none
    else do
      let durations ← prontoDurations env data timebase
        ((intros + repeats) % 2 ^ env.uintBits) 0
      pure (some ⟨khz, intros, repeats, durations⟩)

/-- One call `sendRaw(durations + start, len, khz)`: the primitive is handed `len` elements,
which must lie inside the array. -/
def callSendRaw (durations : List Nat) (start len khz : Nat) : Except Fault Event :=
  if start + len ≤ durations.length then
    .ok (Event.sendRaw ((durations.drop start).take len) khz)
  else
    .error .outOfBounds

/-- The loop over the repeats (lines 107 to 112), with `left` iterations to go. -/
def prontoRepeatLoop (env : Env) (p : ProntoPlan) : Nat → Run
  | 0 => ⟨[], none⟩
  | left + 1 =>
    match callSendRaw p.durations p.intros ((p.repeats + 2 ^ env.uintBits - 1) % 2 ^ env.uintBits)
        p.khz with
    | .error f => ⟨[], some f⟩
    | .ok ev =>
      if left ≠ 0 then
        match readAt p.durations
            ((p.intros + p.repeats + 2 ^ env.uintBits - 1) % 2 ^ env.uintBits) with
        | .error f => ⟨[ev], some f⟩
        | .ok gap =>
          let r := prontoRepeatLoop env p left
          ⟨ev :: Event.delay (gap / 1000) :: r.trace, r.fault⟩
      else
        ⟨[ev], none⟩

/-- Lines 94 to 112 of `sendPronto`: the intro, the deferred gap, the repeats. -/
def prontoTransmit (env : Env) (p : ProntoPlan) (numberOfRepeats : Nat) : Run :=
  let intro : Run :=
    if p.intros ≥ 2 then
      match callSendRaw p.durations 0 (p.intros - 1) p.khz with
      | .error f => ⟨[], some f⟩
      | .ok ev => ⟨[ev], none⟩
    else ⟨[], none⟩
  match intro.fault with
  | some f => ⟨intro.trace, some f⟩
  | none =>
    if p.repeats = 0 ∨ numberOfRepeats = 0 then
      intro
    else
      match readAt p.durations ((p.intros + 2 ^ env.uintBits - 1) % 2 ^ env.uintBits) with
      | .error f => ⟨intro.trace, some f⟩
      | .ok gap =>
        let r := prontoRepeatLoop env p numberOfRepeats
        ⟨intro.trace ++ Event.delay (gap / 1000) :: r.trace, r.fault⟩

/-- The function `IRsend::sendPronto(const uint16_t *data, unsigned int size,
uint8_t numberOfRepeats)`; `data` lists the elements of the array behind the pointer. -/
def sendPronto (env : Env) (data : List Nat) (size numberOfRepeats : Nat) : Run :=
  match prontoPrepare env data size with
  | .error f => ⟨[], some f⟩
  | .ok none => ⟨[], none⟩
  | .ok (some p) => prontoTransmit env p numberOfRepeats

/-! ### The text side: `strtol` and the tokenizer -/

/-- The C library's `isspace` in the "C" locale. -/
def isspace (c : Char) : Bool :=
  c = ' ' || c = '\t' || c = '\n' || c = '\x0b' || c = '\x0c' || c = '\r'

/-- Value of a character as a digit of `strtol`. -/
def strtolDigit (c : Char) : Option Nat :=
  if '0' ≤ c ∧ c ≤ '9' then some (c.toNat - '0'.toNat)
  else if 'a' ≤ c ∧ c ≤ 'z' then some (c.toNat - 'a'.toNat + 10)
  else if 'A' ≤ c ∧ c ≤ 'Z' then some (c.toNat - 'A'.toNat + 10)
  else none

/-- The digits of `strtol` in base 16: the value read and the text left. -/
def strtolDigits : List Char → Nat → Nat × List Char
  | [], acc => (acc, [])
  | c :: cs, acc =>
    match strtolDigit c with
    | some d => if d < 16 then strtolDigits cs (acc * 16 + d) else (acc, c :: cs)
    | none => (acc, c :: cs)

/-- The C library's `strtol(p, endptr, 16)` on the text `p` (the characters before the
terminating NUL): the value returned and the text `*endptr` points to. White space is skipped,
a sign and a `0x` prefix in front of a digit are accepted, the longest run of digits is read,
a value out of the range of `long` is replaced by `LONG_MAX` or `LONG_MIN`; without any digit
the value is 0 and `*endptr` is `p`. -/
def strtol (env : Env) (p : List Char) : Int × List Char :=
  let s1 := p.dropWhile isspace
  let negative : Bool := s1.head? = some '-'
  let s2 := if s1.head? = some '-' ∨ s1.head? = some '+' then s1.tail else s1
  let s3 :=
    if s2.head? = some '0' ∧ (s2[1]? = some 'x' ∨ s2[1]? = some 'X')
        ∧ (s2[2]?.bind strtolDigit).any (fun d => d < 16) then
      s2.drop 2
    else s2
  let r := strtolDigits s3 0
  if r.2.length = s3.length then
    (0, p)
  else if negative then
    (if r.1 ≤ 2 ^ (env.longBits - 1) then - (r.1 : Int) else - (2 ^ (env.longBits - 1) : Int), r.2)
  else
    (if r.1 < 2 ^ (env.longBits - 1) then (r.1 : Int) else (2 ^ (env.longBits - 1) : Int) - 1, r.2)

/-- The loop of `sendPronto(const char *str, ...)` (lines 120 to 129) with `left` iterations
to go: `data` lists the elements written so far, so that `i = data.length`. -/
def parseProntoLoop (env : Env) : Nat → Nat → List Char → List Nat → List Nat
  | 0, _, _, data => data
  | left + 1, i, p, data =>
    let r := strtol env p
    if r.1 = 0 ∧ numbersInPreamble ≤ i then
      data
    else
      parseProntoLoop env left (i + 1) r.2 (data ++ [(r.1 % 65536).toNat])

/-- The array `data` that `sendPronto(const char *str, ...)` fills: its initialised elements,
whose number is the final `len`. -/
def parsePronto (env : Env) (str : List Char) : List Nat :=
  parseProntoLoop env (str.length / (digitsInProntoNumber + 1) + 1) 0 str []

/-- The function `IRsend::sendPronto(const char *str, uint8_t numberOfRepeats)`. -/
def sendProntoStr (env : Env) (str : List Char) (numberOfRepeats : Nat) : Run :=
  sendPronto env (parsePronto env str) (parsePronto env str).length numberOfRepeats

/-! ### The encoder: `dumpPronto` -/

def effectiveFrequency (frequency : Nat) : Nat :=
  if frequency > 0 then frequency else fallbackFrequency

/-- The function `toTimebase(uint16_t frequency)`; the quotient is returned as `uint16_t`. -/
def toTimebase (frequency : Nat) : Except Fault Nat := do
  let q ← udiv microsecondsInSeconds (effectiveFrequency frequency)
  pure (q % 2 ^ 16)

/-- The function `toFrequencyCode(uint16_t frequency)`; the quotient is returned as
`uint16_t`. -/
def toFrequencyCode (frequency : Nat) : Except Fault Nat := do
  let q ← udiv referenceFrequency (effectiveFrequency frequency)
  pure (q % 2 ^ 16)

/-- The function `hexDigit(unsigned int x)`. -/
def hexDigit (x : Nat) : Char :=
  if x ≤ 9 then Char.ofNat (('0'.toNat + x) % 256) else Char.ofNat (('A'.toNat + (x - 10)) % 256)

/-- The function `dumpNumber(Print *, uint16_t number)`: the characters printed. The `String`
overload appends the same characters. -/
def dumpNumber (number : Nat) : List Char :=
  (List.range digitsInProntoNumber).map
      (fun i => hexDigit ((number >>> (bitsInHexadecimal * (digitsInProntoNumber - 1 - i)))
        &&& hexMask))
    ++ [' ']

/-- The function `dumpDuration(Print *, uint32_t duration, uint16_t timebase)`. -/
def dumpDuration (duration timebase : Nat) : Except Fault (List Char) := do
  let q ← udiv ((duration + timebase / 2) % 2 ^ 32) timebase
  pure (dumpNumber (q % 2 ^ 16))

/-- The local `tDuration` of `dumpSequence` for the element `x` at index `i` of its data:
`data[i] * MICROS_PER_TICK` is a product of `unsigned int` width, stored in a `uint32_t`, from
which `MARK_EXCESS_MICROS` is subtracted when `i & 1` and to which it is added otherwise. -/
def compensatedDuration (env : Env) (i x : Nat) : Nat :=
  let tDuration := x * env.MICROS_PER_TICK % 2 ^ env.uintBits % 2 ^ 32
  if i &&& 1 ≠ 0 then (tDuration + (2 ^ 32 - env.MARK_EXCESS_MICROS % 2 ^ 32)) % 2 ^ 32
  else (tDuration + env.MARK_EXCESS_MICROS) % 2 ^ 32

/-- The `for (uint8_t i = 0; i < length; i++)` loop of `dumpSequence`. The counter has 256
values, so a loop that has not ended after 256 iterations is back in a state it has been in
and never ends. -/
def dumpSequenceLoop (env : Env) (data : List Nat) (length timebase : Nat) :
    Nat → Nat → Except Fault (List Char)
  | 0, i => if i < length then .error .nonTermination else .ok []
  | fuel + 1, i =>
    if i < length then do
      let x ← readAt data i
      let out ← dumpDuration (compensatedDuration env i x) timebase
      let rest ← dumpSequenceLoop env data length timebase fuel ((i + 1) % 2 ^ 8)
      pure (out ++ rest)
    else
      .ok []

/-- The function `dumpSequence(Print *, const volatile uint16_t *data, size_t length,
uint16_t timebase)`. -/
def dumpSequence (env : Env) (data : List Nat) (length timebase : Nat) :
    Except Fault (List Char) := do
  let body ← dumpSequenceLoop env data length timebase 256 0
  let gap ← dumpDuration PRONTO_DEFAULT_GAP timebase
  pure (body ++ gap)

/-- The function `IRrecv::dumpPronto(Print *aSerial, unsigned int frequency)`: the characters
printed. `IRrecv::dumpPronto(String *aString, unsigned int frequency)` appends the same
characters to the string. -/
def dumpPronto (env : Env) (s : IRrecv) (frequency : Nat) : Except Fault (List Char) := do
  let token := dumpNumber (if frequency > 0 then learnedToken else learnedNonModulatedToken)
  let code ← toFrequencyCode (frequency % 2 ^ 16)
  let pairs := dumpNumber ((s.rawlen + 1) / 2 % 2 ^ 16)
  let zero := dumpNumber 0
  let timebase ← toTimebase (frequency % 2 ^ 16)
  let sequence ← dumpSequence env (s.rawbuf.drop 1)
    ((s.rawlen + 2 ^ env.uintBits - 1) % 2 ^ env.uintBits) timebase
  pure (token ++ dumpNumber code ++ pairs ++ zero ++ sequence)

/-- The number that `dumpDuration` prints: the duration in units of the timebase, rounded
half up, in 16 bits. -/
def durationGroup (duration timebase : Nat) : Nat :=
  ((duration + timebase / 2) % 2 ^ 32 / timebase) % 2 ^ 16

/-- The numbers that the loop of `dumpSequence` prints for the elements `xs` that start at
index `i` of its data. -/
def sequenceGroups (env : Env) (timebase : Nat) : Nat → List Nat → List Nat
  | _, [] => []
  | i, x :: xs =>
    durationGroup (compensatedDuration env i x) timebase :: sequenceGroups env timebase (i + 1) xs

/-- The text that consecutive calls of `dumpNumber` print for the values of a list. -/
def dumpNumbers : List Nat → List Char
  | [] => []
  | v :: vs => dumpNumber v ++ dumpNumbers vs

/-- The sixteen digits of Pronto Hex, in the order of their values. -/
def hexChars : List Char :=
  ['0', '1', '2', '3', '4', '5', '6', '7', '8', '9', 'A', 'B', 'C', 'D', 'E', 'F']

/-! ### The `String` overloads of the encoder -/

/-- The Arduino `String` that `dumpPronto(String *, ...)` appends to: its characters and the
number of characters it can hold before `concat` cannot obtain memory any more. -/
structure ArduinoString where
  chars : List Char
  capacity : Nat
  deriving DecidableEq

/-- The call `aString->concat(c)`: the string afterwards and the value returned, 1 when the
character was appended and 0 when it was not. -/
def ArduinoString.concat (s : ArduinoString) (c : Char) : ArduinoString × Nat :=
  if s.chars.length < s.capacity then ({ s with chars := s.chars ++ [c] }, 1) else (s, 0)

/-- The function `dumpDigit(String *aString, unsigned int number)`. -/
def dumpDigitString (s : ArduinoString) (number : Nat) : ArduinoString × Nat :=
  s.concat (hexDigit number)

/-- The function `dumpNumber(String *aString, uint16_t number)`: the string afterwards and
the `size` returned. -/
def dumpNumberString (s : ArduinoString) (number : Nat) : ArduinoString × Nat :=
  let digits := (List.range digitsInProntoNumber).foldl
    (fun (acc : ArduinoString × Nat) i =>
      let r := dumpDigitString acc.1
        ((number >>> (bitsInHexadecimal * (digitsInProntoNumber - 1 - i))) &&& hexMask)
      (r.1, acc.2 + r.2))
    (s, 0)
  let r := digits.1.concat ' '
  (r.1, digits.2 + r.2)

/-- The function `dumpDuration(String *aString, uint32_t duration, uint16_t timebase)`. -/
def dumpDurationString (s : ArduinoString) (duration timebase : Nat) :
    Except Fault (ArduinoString × Nat) := do
  let q ← udiv ((duration + timebase / 2) % 2 ^ 32) timebase
  pure (dumpNumberString s (q % 2 ^ 16))

/-- The loop of `dumpSequence(String *, ...)`, with the same `uint8_t` counter as the loop of
the `Print` overload; `size` is the sum so far. -/
def dumpSequenceStringLoop (env : Env) (data : List Nat) (length timebase : Nat) :
    Nat → Nat → ArduinoString → Nat → Except Fault (ArduinoString × Nat)
  | 0, i, s, size => if i < length then .error .nonTermination else .ok (s, size)
  | fuel + 1, i, s, size =>
    if i < length then do
      let x ← readAt data i
      let r ← dumpDurationString s (compensatedDuration env i x) timebase
      dumpSequenceStringLoop env data length timebase fuel ((i + 1) % 2 ^ 8) r.1 (size + r.2)
    else
      .ok (s, size)

/-- The function `dumpSequence(String *aString, const volatile uint16_t *data, size_t length,
uint16_t timebase)`. -/
def dumpSequenceString (env : Env) (s : ArduinoString) (data : List Nat)
    (length timebase : Nat) : Except Fault (ArduinoString × Nat) := do
  let body ← dumpSequenceStringLoop env data length timebase 256 0 s 0
  let gap ← dumpDurationString body.1 PRONTO_DEFAULT_GAP timebase
  pure (gap.1, body.2 + gap.2)

/-- The function `IRrecv::dumpPronto(String *aString, unsigned int frequency)`: the string
afterwards and the `size` returned. A run that ends adds at most 5 * 260 to `size`, which
fits in a `size_t` of 16 bits. -/
def dumpProntoString (env : Env) (recv : IRrecv) (s : ArduinoString) (frequency : Nat) :
    Except Fault (ArduinoString × Nat) := do
  let timebase ← toTimebase (frequency % 2 ^ 16)
  let r0 := dumpNumberString s (if frequency > 0 then learnedToken else learnedNonModulatedToken)
  let code ← toFrequencyCode (frequency % 2 ^ 16)
  let r1 := dumpNumberString r0.1 code
  let r2 := dumpNumberString r1.1 ((recv.rawlen + 1) / 2 % 2 ^ 16)
  let r3 := dumpNumberString r2.1 0
  let r4 ← dumpSequenceString env r3.1 (recv.rawbuf.drop 1)
    ((recv.rawlen + 2 ^ env.uintBits - 1) % 2 ^ env.uintBits) timebase
  pure (r4.1, r0.2 + r1.2 + r2.2 + r3.2 + r4.2)

/-! ### The bits of a MagiQuest capture, in the words of the specification -/

/-- The classified bits of `n` consecutive (mark, space) pairs that start at `offset`: a pair
is bit 0 when `space / mark > 1` by integer division and bit 1 otherwise. -/
def classifiedBits (rawbuf : List Nat) : Nat → Nat → List Bool
  | _, 0 => []
  | offset, n + 1 =>
    decide (¬ rawbuf.getD (offset + 1) 0 / rawbuf.getD offset 0 > 1)
      :: classifiedBits rawbuf (offset + 2) n

/-- The number formed from bits in reading order, the first bit the most significant. -/
def bitsValue : List Bool → Nat
  | [] => 0
  | b :: bs => b.toNat * 2 ^ bs.length + bitsValue bs

/-! ### The transmission schedule, in the words of the specification -/

/-- The schedule of the specification: the intro block without its last element; then, if a
repeat block exists and repeats are requested, the deferred intro gap and the repeat block
without its last element once for each repetition, with the gap of the repeat block between
two repetitions and not after the last. Gaps are waited out in milliseconds. -/
def prontoSchedule (durations : List Nat) (intros repeats khz numberOfRepeats : Nat) :
    List Event :=
  Event.sendRaw (durations.take (intros - 1)) khz ::
    (if repeats = 0 ∨ numberOfRepeats = 0 then []
      else
        Event.delay (durations.getD (intros - 1) 0 / 1000) ::
          List.intersperse (Event.delay (durations.getD (intros + repeats - 1) 0 / 1000))
            (List.replicate numberOfRepeats
              (Event.sendRaw ((durations.drop intros).take (repeats - 1)) khz)))

/-- Whether an event is a transmission. -/
def Event.isSendRaw : Event → Bool
  | .sendRaw _ _ => true
  | .delay _ => false

/-- Whether an event is a wait. -/
def Event.isDelay : Event → Bool
  | .sendRaw _ _ => false
  | .delay _ => true

/-! ## Concrete inputs -/

/-- A capture of 102 entries whose first pair is a MagiQuest bit and whose second pair
(40 + 40 ticks) is outside the period. -/
def brokenCapture : IRrecv :=
  { IRrecv.empty with
    rawbuf := 1000 :: 5 :: 17 :: 40 :: 40 :: List.replicate 97 11
    rawlen := 102
    value := 7
    magnitude := 9 }

/-- A capture of odd length: the gap and two durations. -/
def oddCapture : IRrecv :=
  { IRrecv.empty with rawbuf := [1000, 180, 90], rawlen := 3 }

/-- A capture of four entries: the gap, a mark of 9000, a space of 4500 and a mark of 550
microseconds. -/
def sampleCapture : IRrecv :=
  { IRrecv.empty with rawbuf := [1000, 180, 90, 11], rawlen := 4 }

/-- A capture of 102 entries in which every pair lasts 22 ticks and the first mark lasts 0
ticks. -/
def zeroMarkCapture : IRrecv :=
  { IRrecv.empty with rawbuf := 1000 :: 0 :: 22 :: List.replicate 99 11, rawlen := 102 }

/-- A capture as long as one of a NEC code: the gap and 67 durations. -/
def necCapture : IRrecv :=
  { IRrecv.empty with rawbuf := 1000 :: List.replicate 67 11, rawlen := 68 }

/-- The pairs of a MagiQuest capture behind the two start bits, and the stop mark: the tail
of the capture of `sendMagiQuest(0x12345678, 0x9ABC)`. -/
def wandTail : List Nat :=
  (rawOfPulses avrEnv 1000 (sendMagiQuest 0x12345678 0x9ABC)).drop 5

/-- The capture of `sendMagiQuest(0x12345678, 0x9ABC)`: both start bits are sent as bit 0. -/
def wandCapture : IRrecv :=
  { IRrecv.empty with rawbuf := [1000, 5, 17, 5, 17] ++ wandTail, rawlen := 102 }

/-- The result fields after decoding wand 0x12345678 with magnitude 0x9ABC from a capture. -/
def wandDecoded (s : IRrecv) : IRrecv :=
  { s with
    protocol := decode_type_t.MAGIQUEST
    numberOfBits := 50
    value := 0x12345678
    magnitude := 0x9ABC
    flags := 0x80 }

/-- The same capture with both start bits received as bit 1. -/
def wandCaptureOnes : IRrecv :=
  { IRrecv.empty with rawbuf := [1000, 11, 11, 11, 11] ++ wandTail, rawlen := 102 }

/-! ## Lemmas on MagiQuest -/

theorem readAt_append_cons (pre post : List Nat) (x : Nat) :
    readAt (pre ++ x :: post) pre.length = .ok x := by
  have h : (pre ++ x :: post)[pre.length]? = some x := by
    rw [List.getElem?_append_right (le_refl _)]
    simp
  simp only [readAt, h]

theorem readAt_append_cons_succ (pre post : List Nat) (x y : Nat) :
    readAt (pre ++ x :: y :: post) (pre.length + 1) = .ok y := by
  have h : pre ++ x :: y :: post = (pre ++ [x]) ++ y :: post := by simp
  have hl : pre.length + 1 = (pre ++ [x]).length := by simp
  rw [h, hl]
  exact readAt_append_cons _ _ _

theorem shift_or_one (a : Nat) (h : 2 * a < 2 ^ 64) :
    ((a <<< 1) % 2 ^ 64) ||| 1 = 2 * a + 1 := by
  have h1 : a <<< 1 = 2 ^ 1 * a := by rw [Nat.shiftLeft_eq]; ring
  rw [h1, Nat.mod_eq_of_lt (by simpa using h)]
  exact (Nat.mul_add_lt_is_or (by norm_num) a).symm

theorem shift_zero (a : Nat) (h : 2 * a < 2 ^ 64) : (a <<< 1) % 2 ^ 64 = 2 * a := by
  rw [Nat.shiftLeft_eq, Nat.mod_eq_of_lt (by omega)]
  ring

theorem mod_two_pow_step (data n : Nat) :
    data % 2 ^ (n + 1) = 2 ^ n * (data.testBit n).toNat + data % 2 ^ n := by
  rw [Nat.mod_pow_succ, Nat.toNat_testBit]
  ring

/-- One iteration of the decoder loop on a pair sent for a bit 1. -/
theorem decodeMagiQuestLoop_one (env : Env) (h16 : 16 ≤ env.uintBits)
    (htick : 0 < 288 / env.MICROS_PER_TICK)
    (hone : env.MATCH_MARK (576 / env.MICROS_PER_TICK + 576 / env.MICROS_PER_TICK) 1150 = true)
    (pre post : List Nat) (rawlen fuel acc : Nat) (hlen : pre.length + 2 ≤ rawlen)
    (hacc : 2 * acc < 2 ^ 64) :
    decodeMagiQuestLoop env
        (pre ++ 576 / env.MICROS_PER_TICK :: 576 / env.MICROS_PER_TICK :: post)
        rawlen (fuel + 1) pre.length acc
      = decodeMagiQuestLoop env
        (pre ++ 576 / env.MICROS_PER_TICK :: 576 / env.MICROS_PER_TICK :: post)
        rawlen fuel (pre.length + 2) (2 * acc + 1) := by
  have hpos : 0 < 576 / env.MICROS_PER_TICK :=
    lt_of_lt_of_le htick (Nat.div_le_div_right (by norm_num))
  have hsum : (576 / env.MICROS_PER_TICK + 576 / env.MICROS_PER_TICK) % 2 ^ env.uintBits
      = 576 / env.MICROS_PER_TICK + 576 / env.MICROS_PER_TICK := by
    apply Nat.mod_eq_of_lt
    have h1 : 576 / env.MICROS_PER_TICK ≤ 576 := Nat.div_le_self _ _
    have h2 : 2 ^ 16 ≤ 2 ^ env.uintBits := Nat.pow_le_pow_right (by norm_num) h16
    omega
  rw [decodeMagiQuestLoop, if_pos (by omega), readAt_append_cons, readAt_append_cons_succ]
  simp only [udiv, bind, Except.bind, MAGIQUEST_PERIOD]
  rw [if_neg (by omega), hsum, Nat.div_self hpos, shift_or_one acc hacc]
  simp [hone]

/-- One iteration of the decoder loop on a pair sent for a bit 0. -/
theorem decodeMagiQuestLoop_zero (env : Env) (h16 : 16 ≤ env.uintBits)
    (htick : 0 < 288 / env.MICROS_PER_TICK)
    (hzero : env.MATCH_MARK (864 / env.MICROS_PER_TICK + 288 / env.MICROS_PER_TICK) 1150 = true)
    (pre post : List Nat) (rawlen fuel acc : Nat) (hlen : pre.length + 2 ≤ rawlen)
    (hacc : 2 * acc < 2 ^ 64) :
    decodeMagiQuestLoop env
        (pre ++ 288 / env.MICROS_PER_TICK :: 864 / env.MICROS_PER_TICK :: post)
        rawlen (fuel + 1) pre.length acc
      = decodeMagiQuestLoop env
        (pre ++ 288 / env.MICROS_PER_TICK :: 864 / env.MICROS_PER_TICK :: post)
        rawlen fuel (pre.length + 2) (2 * acc) := by
  have hsum : (864 / env.MICROS_PER_TICK + 288 / env.MICROS_PER_TICK) % 2 ^ env.uintBits
      = 864 / env.MICROS_PER_TICK + 288 / env.MICROS_PER_TICK := by
    apply Nat.mod_eq_of_lt
    have h1 : 864 / env.MICROS_PER_TICK ≤ 864 := Nat.div_le_self _ _
    have h3 : 288 / env.MICROS_PER_TICK ≤ 288 := Nat.div_le_self _ _
    have h2 : 2 ^ 16 ≤ 2 ^ env.uintBits := Nat.pow_le_pow_right (by norm_num) h16
    omega
  have hratio : 1 < 864 / env.MICROS_PER_TICK / (288 / env.MICROS_PER_TICK) := by
    have hm : 0 < env.MICROS_PER_TICK := by
      rcases Nat.eq_zero_or_pos env.MICROS_PER_TICK with h | h
      · rw [h] at htick; simp at htick
      · exact h
    have h3 : 3 * (288 / env.MICROS_PER_TICK) ≤ 864 / env.MICROS_PER_TICK := by
      rw [Nat.le_div_iff_mul_le hm]
      have := Nat.div_mul_le_self 288 env.MICROS_PER_TICK
      nlinarith
    have : 2 ≤ 864 / env.MICROS_PER_TICK / (288 / env.MICROS_PER_TICK) := by
      rw [Nat.le_div_iff_mul_le htick]
      omega
    omega
  rw [decodeMagiQuestLoop, if_pos (by omega), readAt_append_cons, readAt_append_cons_succ]
  simp only [udiv, bind, Except.bind, MAGIQUEST_PERIOD]
  rw [if_neg (by omega), hsum, shift_zero acc hacc]
  simp [hzero, hratio]

theorem length_map_pulseDistanceWidthBits (f : Pulse → Nat) (a b c d data n : Nat) :
    ((pulseDistanceWidthBits a b c d data n).map f).length = 2 * n := by
  induction n with
  | zero => simp [pulseDistanceWidthBits]
  | succ n ih =>
    simp only [List.length_map] at ih
    by_cases hb : data.testBit n <;> simp [pulseDistanceWidthBits, hb, ih] <;> omega

/-- The decoder loop over the pairs sent for the low `n` bits of `data`: the bits are shifted
into `llword`, most significant first. -/
theorem decodeMagiQuestLoop_bits (env : Env) (h16 : 16 ≤ env.uintBits)
    (htick : 0 < 288 / env.MICROS_PER_TICK)
    (hone : env.MATCH_MARK (576 / env.MICROS_PER_TICK + 576 / env.MICROS_PER_TICK) 1150 = true)
    (hzero : env.MATCH_MARK (864 / env.MICROS_PER_TICK + 288 / env.MICROS_PER_TICK) 1150 = true)
    (data rawlen : Nat) :
    ∀ (n : Nat) (raw pre post : List Nat) (fuel acc k : Nat),
      raw = pre ++ ((pulseDistanceWidthBits 576 576 288 864 data n).map
        (fun p => p.micros / env.MICROS_PER_TICK) ++ post) →
      pre.length + 2 * n ≤ rawlen → acc < 2 ^ k → k + n ≤ 64 →
      decodeMagiQuestLoop env raw rawlen (fuel + n) pre.length acc
        = decodeMagiQuestLoop env raw rawlen fuel (pre.length + 2 * n)
          (acc * 2 ^ n + data % 2 ^ n) := by
  intro n
  induction n with
  | zero =>
    intro raw pre post fuel acc k _ _ _ _
    simp [Nat.mod_one]
  | succ n ih =>
    intro raw pre post fuel acc k hraw hlen hacc hk
    have h2acc : 2 * acc < 2 ^ 64 := by
      have h1 : 2 ^ (k + 1) ≤ 2 ^ 64 := Nat.pow_le_pow_right (by norm_num) (by omega)
      have h2 : 2 ^ (k + 1) = 2 * 2 ^ k := by ring
      omega
    have hfuel : fuel + (n + 1) = (fuel + n) + 1 := by omega
    by_cases hb : data.testBit n
    · have hraw2 : raw = pre ++ 576 / env.MICROS_PER_TICK :: 576 / env.MICROS_PER_TICK ::
          ((pulseDistanceWidthBits 576 576 288 864 data n).map
            (fun p => p.micros / env.MICROS_PER_TICK) ++ post) := by
        rw [hraw]; simp [pulseDistanceWidthBits, hb, Pulse.micros]
      have hraw3 : raw = (pre ++ [576 / env.MICROS_PER_TICK, 576 / env.MICROS_PER_TICK]) ++
          ((pulseDistanceWidthBits 576 576 288 864 data n).map
            (fun p => p.micros / env.MICROS_PER_TICK) ++ post) := by
        rw [hraw2]; simp
      have hstep := decodeMagiQuestLoop_one env h16 htick hone pre
        ((pulseDistanceWidthBits 576 576 288 864 data n).map
            (fun p => p.micros / env.MICROS_PER_TICK) ++ post) rawlen (fuel + n) acc
        (by omega) h2acc
      rw [← hraw2] at hstep
      have hrest := ih raw (pre ++ [576 / env.MICROS_PER_TICK, 576 / env.MICROS_PER_TICK])
        post fuel (2 * acc + 1) (k + 1) hraw3 (by simp; omega)
        (by have h2 : 2 ^ (k + 1) = 2 * 2 ^ k := by ring
            omega) (by omega)
      have hl : (pre ++ [576 / env.MICROS_PER_TICK, 576 / env.MICROS_PER_TICK]).length
          = pre.length + 2 := by simp
      rw [hl] at hrest
      rw [hfuel, hstep, hrest, mod_two_pow_step data n, hb]
      congr 1
      · omega
      · simp only [Bool.toNat_true]; ring
    · have hraw2 : raw = pre ++ 288 / env.MICROS_PER_TICK :: 864 / env.MICROS_PER_TICK ::
          ((pulseDistanceWidthBits 576 576 288 864 data n).map
            (fun p => p.micros / env.MICROS_PER_TICK) ++ post) := by
        rw [hraw]; simp [pulseDistanceWidthBits, hb, Pulse.micros]
      have hraw3 : raw = (pre ++ [288 / env.MICROS_PER_TICK, 864 / env.MICROS_PER_TICK]) ++
          ((pulseDistanceWidthBits 576 576 288 864 data n).map
            (fun p => p.micros / env.MICROS_PER_TICK) ++ post) := by
        rw [hraw2]; simp
      have hstep := decodeMagiQuestLoop_zero env h16 htick hzero pre
        ((pulseDistanceWidthBits 576 576 288 864 data n).map
            (fun p => p.micros / env.MICROS_PER_TICK) ++ post) rawlen (fuel + n) acc
        (by omega) h2acc
      rw [← hraw2] at hstep
      have hrest := ih raw (pre ++ [288 / env.MICROS_PER_TICK, 864 / env.MICROS_PER_TICK])
        post fuel (2 * acc) (k + 1) hraw3 (by simp; omega)
        (by have h2 : 2 ^ (k + 1) = 2 * 2 ^ k := by ring
            omega) (by omega)
      have hl : (pre ++ [288 / env.MICROS_PER_TICK, 864 / env.MICROS_PER_TICK]).length
          = pre.length + 2 := by simp
      rw [hl] at hrest
      have hbf : data.testBit n = false := by simpa using hb
      rw [hfuel, hstep, hrest, mod_two_pow_step data n, hbf]
      congr 1
      · omega
      · simp only [Bool.toNat_false]; ring

theorem decodeMagiQuestLoop_done (env : Env) (raw : List Nat) (rawlen fuel offset acc : Nat)
    (h : ¬ offset + 1 < rawlen) :
    decodeMagiQuestLoop env raw rawlen fuel offset acc = .ok (some (offset, acc)) := by
  cases fuel <;> simp [decodeMagiQuestLoop, h]

/-- With `uint32_t` aligned to 1 or 2 bytes `wand_id` follows `magnitude` directly. -/
theorem wand_id_offset_unpadded (env : Env)
    (hlayout : env.uint32Align = 1 ∨ env.uint32Align = 2) :
    magiquest_t.wand_id_offset env = 2 := by
  unfold magiquest_t.wand_id_offset
  rcases hlayout with h | h <;> rw [h]

/-- With `uint32_t` aligned to 1 or 2 bytes `wand_id` is bits 16..47 of `llword`. -/
theorem wand_id_unpadded (env : Env) (hlayout : env.uint32Align = 1 ∨ env.uint32Align = 2)
    (llword : Nat) : magiquest_t.wand_id env llword = (llword / 2 ^ 16) % 2 ^ 32 := by
  unfold magiquest_t.wand_id
  rw [wand_id_offset_unpadded env hlayout]

/-- With `uint32_t` aligned to 4 bytes `wand_id` is bits 32..63 of `llword`. -/
theorem wand_id_aligned (env : Env) (hlayout : env.uint32Align = 4) (llword : Nat) :
    magiquest_t.wand_id env llword = (llword / 2 ^ 32) % 2 ^ 32 := by
  unfold magiquest_t.wand_id magiquest_t.wand_id_offset
  rw [hlayout]

/-- MagiQuest round trip where the members of the union lie without padding (`uint32_t`
aligned to 1 or 2 bytes, as on AVR): the 102-entry raw sequence made of a leading gap, the
pairs `sendMagiQuest` emits for a 32-bit wand id `w` and a 16-bit magnitude `m` and the final
stop mark, each duration as a tick count, is decoded by `decodeMagiQuest` to `true` with
`results.value = w` and `results.magnitude = m`, whenever the tick is short enough for the
shortest mark to last at least one tick and the matcher accepts the two pairs. -/
theorem magiquest_round_trip (env : Env) (s : IRrecv) (gap w m : Nat)
    (hw : w < 2 ^ 32) (hm : m < 2 ^ 16) (h16 : 16 ≤ env.uintBits)
    (htick : 0 < 288 / env.MICROS_PER_TICK)
    (hone : env.MATCH_MARK (576 / env.MICROS_PER_TICK + 576 / env.MICROS_PER_TICK) 1150 = true)
    (hzero : env.MATCH_MARK (864 / env.MICROS_PER_TICK + 288 / env.MICROS_PER_TICK) 1150
      = true)
    (hlayout : env.uint32Align = 1 ∨ env.uint32Align = 2) :
    (rawOfPulses env gap (sendMagiQuest w m)).length = 102
      ∧ decodeMagiQuest env
          { s with rawbuf := rawOfPulses env gap (sendMagiQuest w m), rawlen := 102 }
        = .ok (true,
          { s with
            rawbuf := rawOfPulses env gap (sendMagiQuest w m)
            rawlen := 102
            value := w
            magnitude := m
            protocol := decode_type_t.MAGIQUEST
            numberOfBits := 50
            flags := env.IRDATA_FLAGS_IS_OLD_DECODER }) := by
  have e1 : rawOfPulses env gap (sendMagiQuest w m) = [gap] ++
      ((pulseDistanceWidthBits 576 576 288 864 0 2).map
          (fun p => p.micros / env.MICROS_PER_TICK) ++
        ((pulseDistanceWidthBits 576 576 288 864 w 32).map
            (fun p => p.micros / env.MICROS_PER_TICK) ++
          ((pulseDistanceWidthBits 576 576 288 864 m 16).map
              (fun p => p.micros / env.MICROS_PER_TICK) ++
            [288 / env.MICROS_PER_TICK]))) := by
    simp [rawOfPulses, sendMagiQuest, sendPulseDistanceWidthData, MAGIQUEST_ONE_MARK,
      MAGIQUEST_ONE_SPACE, MAGIQUEST_ZERO_MARK, MAGIQUEST_ZERO_SPACE, MAGIQUEST_UNIT,
      MAGIQUEST_WAND_ID_BITS, MAGIQUEST_MAGNITUDE_BITS, Pulse.micros]
  have hB0 := length_map_pulseDistanceWidthBits (fun p => p.micros / env.MICROS_PER_TICK)
    576 576 288 864 0 2
  have hB1 := length_map_pulseDistanceWidthBits (fun p => p.micros / env.MICROS_PER_TICK)
    576 576 288 864 w 32
  have hB2 := length_map_pulseDistanceWidthBits (fun p => p.micros / env.MICROS_PER_TICK)
    576 576 288 864 m 16
  have hlen : (rawOfPulses env gap (sendMagiQuest w m)).length = 102 := by
    rw [e1]
    simp only [List.length_append, hB0, hB1, hB2, List.length_singleton]
  refine ⟨hlen, ?_⟩
  generalize rawOfPulses env gap (sendMagiQuest w m) = raw at e1 hlen ⊢
  have e2 : raw = ([gap] ++ (pulseDistanceWidthBits 576 576 288 864 0 2).map
        (fun p => p.micros / env.MICROS_PER_TICK)) ++
      ((pulseDistanceWidthBits 576 576 288 864 w 32).map
          (fun p => p.micros / env.MICROS_PER_TICK) ++
        ((pulseDistanceWidthBits 576 576 288 864 m 16).map
            (fun p => p.micros / env.MICROS_PER_TICK) ++
          [288 / env.MICROS_PER_TICK])) := by
    rw [e1]; simp only [List.append_assoc]
  have e3 : raw = ([gap] ++ (pulseDistanceWidthBits 576 576 288 864 0 2).map
        (fun p => p.micros / env.MICROS_PER_TICK) ++
        (pulseDistanceWidthBits 576 576 288 864 w 32).map
          (fun p => p.micros / env.MICROS_PER_TICK)) ++
      ((pulseDistanceWidthBits 576 576 288 864 m 16).map
          (fun p => p.micros / env.MICROS_PER_TICK) ++
        [288 / env.MICROS_PER_TICK]) := by
    rw [e1]; simp only [List.append_assoc]
  have s1 := decodeMagiQuestLoop_bits env h16 htick hone hzero 0 102 2 raw [gap] _ 100 0 0 e1
    (by simp) (by norm_num) (by norm_num)
  have s2 := decodeMagiQuestLoop_bits env h16 htick hone hzero w 102 32 raw _ _ 68
    (0 * 2 ^ 2 + 0 % 2 ^ 2) 0 e2
    (by simp only [List.length_append, hB0, List.length_singleton]; norm_num)
    (by norm_num) (by norm_num)
  have s3 := decodeMagiQuestLoop_bits env h16 htick hone hzero m 102 16 raw _ _ 52
    ((0 * 2 ^ 2 + 0 % 2 ^ 2) * 2 ^ 32 + w % 2 ^ 32) 32 e3
    (by simp only [List.length_append, hB0, hB1, List.length_singleton]; norm_num)
    (by have := Nat.mod_lt w (show 0 < 2 ^ 32 by norm_num)
        omega) (by norm_num)
  simp only [List.length_append, hB0, hB1, List.length_singleton] at s1 s2 s3
  have hw' : w % 4294967296 = w := Nat.mod_eq_of_lt (by simpa using hw)
  have hm' : m % 65536 = m := Nat.mod_eq_of_lt (by simpa using hm)
  norm_num [hw', hm'] at s1 s2 s3
  have hloop : decodeMagiQuestLoop env raw 102 102 1 0
      = .ok (some (101, w * 65536 + m)) := by
    rw [s1, s2, s3]
    exact decodeMagiQuestLoop_done env raw 102 52 101 _ (by norm_num)
  have hwand : magiquest_t.wand_id env (w * 65536 + m) = w := by
    rw [wand_id_unpadded env hlayout, show (w * 65536 + m) / 2 ^ 16 = w by omega]
    exact Nat.mod_eq_of_lt hw
  have hmag : magiquest_t.magnitude (w * 65536 + m) = m := by
    unfold magiquest_t.magnitude
    omega
  simp [decodeMagiQuest, MAGIQUEST_BITS, MAGIQUEST_MAGNITUDE_BITS, MAGIQUEST_WAND_ID_BITS,
    hloop, hwand, hmag, bind, Except.bind]

set_option maxRecDepth 100000 in
theorem magiquest_round_trip_witness :
    (rawOfPulses avrEnv 1000 (sendMagiQuest 0x12345678 0x9ABC)).length = 102
      ∧ decodeMagiQuest avrEnv
          { IRrecv.empty with
            rawbuf := rawOfPulses avrEnv 1000 (sendMagiQuest 0x12345678 0x9ABC), rawlen := 102 }
        = .ok (true,
          { IRrecv.empty with
            rawbuf := rawOfPulses avrEnv 1000 (sendMagiQuest 0x12345678 0x9ABC)
            rawlen := 102
            value := 0x12345678
            magnitude := 0x9ABC
            protocol := decode_type_t.MAGIQUEST
            numberOfBits := 50
            flags := avrEnv.IRDATA_FLAGS_IS_OLD_DECODER }) :=
  magiquest_round_trip avrEnv IRrecv.empty 1000 0x12345678 0x9ABC (by norm_num) (by norm_num)
    (by decide) (by decide) (by decide) (by decide) (Or.inl rfl)

/-- C2. MagiQuest length gate: whatever the receiver holds, a `rawlen` different from
`2*48+6 = 102` makes `decodeMagiQuest` return `false` (and leave the receiver as it was). -/
theorem magiquest_length_gate (env : Env) (s : IRrecv) (h : s.rawlen ≠ 102) :
    decodeMagiQuest env s = .ok (false, s) := by
  simp [decodeMagiQuest, MAGIQUEST_BITS, MAGIQUEST_MAGNITUDE_BITS, MAGIQUEST_WAND_ID_BITS, h]

theorem magiquest_length_gate_witness :
    decodeMagiQuest avrEnv { IRrecv.empty with rawbuf := List.replicate 101 11, rawlen := 101 }
      = .ok (false, { IRrecv.empty with rawbuf := List.replicate 101 11, rawlen := 101 }) :=
  magiquest_length_gate avrEnv _ (by decide)

/-- C6. No partial MagiQuest result on failure: whenever `decodeMagiQuest` returns `false`,
the receiver (protocol, number of bits, flags, value and magnitude included) is exactly what
it was before the call. -/
theorem magiquest_no_partial_result (env : Env) (s s' : IRrecv)
    (h : decodeMagiQuest env s = .ok (false, s')) : s' = s := by
  unfold decodeMagiQuest at h
  split at h
  · simp only [Except.ok.injEq, Prod.mk.injEq, true_and] at h
    exact h.symm
  · cases hl : decodeMagiQuestLoop env s.rawbuf s.rawlen s.rawlen 1 0 with
    | error e => simp [hl, bind, Except.bind] at h
    | ok r =>
      cases r with
      | none =>
        simp only [hl, bind, Except.bind, Except.ok.injEq, Prod.mk.injEq, true_and] at h
        exact h.symm
      | some p => simp [hl, bind, Except.bind] at h

set_option maxRecDepth 100000 in
theorem magiquest_no_partial_result_witness :
    decodeMagiQuest avrEnv brokenCapture = .ok (false, brokenCapture)
      ∧ brokenCapture = brokenCapture :=
  ⟨by decide, magiquest_no_partial_result avrEnv brokenCapture brokenCapture (by decide)⟩

/-! ## Theorems on `sendPronto` -/

theorem add_mod_mod_mod (a b c M : Nat) : (a + b % M + c % M) % M = (a + b + c) % M := by
  simp [Nat.add_mod]

/-- Pronto structural rejection in the arithmetic of the code: for every element array of size
at least 4 and every repeat count, if `data[0]` is neither `0x0000` nor `0x0100`, or if
`4 + 2*data[2] + 2*data[3]` reduced modulo `2 ^ uintBits` (the `unsigned int` sum the code
compares) is different from `size`, `sendPronto` performs no `sendRaw` call and no `delay`:
the trace of events is empty. -/
theorem sendPronto_structural_rejection (env : Env) (d0 d1 d2 d3 : Nat) (rest : List Nat)
    (numberOfRepeats : Nat)
    (h : (d0 ≠ 0x0000 ∧ d0 ≠ 0x0100)
      ∨ (4 + 2 * d2 + 2 * d3) % 2 ^ env.uintBits ≠ (d0 :: d1 :: d2 :: d3 :: rest).length) :
    (sendPronto env (d0 :: d1 :: d2 :: d3 :: rest) (d0 :: d1 :: d2 :: d3 :: rest).length
      numberOfRepeats).trace = [] := by
  have hsum : (numbersInPreamble + 2 * d2 % 2 ^ env.uintBits + 2 * d3 % 2 ^ env.uintBits)
      % 2 ^ env.uintBits = (4 + 2 * d2 + 2 * d3) % 2 ^ env.uintBits :=
    add_mod_mod_mod 4 (2 * d2) (2 * d3) (2 ^ env.uintBits)
  unfold sendPronto prontoPrepare
  simp only [readAt, List.getElem?_cons_zero, List.getElem?_cons_succ, bind, Except.bind, pure,
    Except.pure, learnedToken, learnedNonModulatedToken, hsum]
  by_cases h0 : d0 = 0
  · have hbad : (4 + 2 * d2 + 2 * d3) % 2 ^ env.uintBits
        ≠ (d0 :: d1 :: d2 :: d3 :: rest).length := by
      rcases h with h | h
      · exact absurd h0 h.1
      · exact h
    subst h0
    cases hk : toFrequencyKHz d1 with
    | error e => simp [hk]
    | ok k => simp only [hk, if_true, if_pos hbad]
  · by_cases h1 : d0 = 0x100
    · have hbad : (4 + 2 * d2 + 2 * d3) % 2 ^ env.uintBits
          ≠ (d0 :: d1 :: d2 :: d3 :: rest).length := by
        rcases h with h | h
        · exact absurd h1 h.2
        · exact h
      subst h1
      simp only [if_pos hbad]
      simp
    · simp [h0, h1]

theorem sendPronto_structural_rejection_witness :
    (sendPronto avrEnv (0 :: 0x6D :: 2 :: 0 :: [0x10, 0x20, 0x30])
      (0 :: 0x6D :: 2 :: 0 :: [0x10, 0x20, 0x30]).length 3).trace = [] :=
  sendPronto_structural_rejection avrEnv 0 0x6D 2 0 [0x10, 0x20, 0x30] 3
    (Or.inr (by decide))

/-- On a target whose `unsigned int` has at least 19 bits the sum the code compares is the
exact sum of the declared sizes. -/
theorem declared_size_exact (env : Env) (h19 : 19 ≤ env.uintBits) (d2 d3 : Nat)
    (h2 : d2 < 2 ^ 16) (h3 : d3 < 2 ^ 16) :
    (4 + 2 * d2 + 2 * d3) % 2 ^ env.uintBits = 4 + 2 * d2 + 2 * d3 := by
  apply Nat.mod_eq_of_lt
  have h : 2 ^ 19 ≤ 2 ^ env.uintBits := Nat.pow_le_pow_right (by norm_num) h19
  omega

theorem prontoTimebase_le (env : Env) (code : Nat) : prontoTimebase env code ≤ 1036 := by
  unfold prontoTimebase
  have h1 : (microsecondsInSeconds * code % 2 ^ 32 + referenceFrequency / 2) % 2 ^ 32
      < 2 ^ 32 := Nat.mod_lt _ (by norm_num)
  have h2 : (microsecondsInSeconds * code % 2 ^ 32 + referenceFrequency / 2) % 2 ^ 32
      / referenceFrequency ≤ 1036 := by
    unfold referenceFrequency at *
    omega
  exact le_trans (Nat.mod_le _ _) h2

/-- The stored duration of one element: the exact product, clamped. -/
theorem prontoDuration_eq_min (env : Env) (e code : Nat) (he : e < 2 ^ 16) :
    prontoDuration e (prontoTimebase env code) = min (e * prontoTimebase env code) 65535 := by
  have ht := prontoTimebase_le env code
  have hp : e * prontoTimebase env code < 2 ^ 32 := by
    calc e * prontoTimebase env code ≤ 65535 * 1036 := Nat.mul_le_mul (by omega) ht
      _ < 2 ^ 32 := by norm_num
  unfold prontoDuration MICROSECONDS_T_MAX
  simp only [Nat.mod_eq_of_lt hp]
  split <;> omega

/-- The loop that fills `durations`, on the elements behind the preamble. -/
theorem prontoDurations_eq_map (env : Env) (timebase : Nat) (pre : List Nat)
    (hpre : pre.length = 4) :
    ∀ (todo done : List Nat), (pre ++ done ++ todo).length < 2 ^ env.uintBits →
      prontoDurations env (pre ++ done ++ todo) timebase todo.length done.length
        = .ok (todo.map (fun e => prontoDuration e timebase)) := by
  intro todo
  induction todo with
  | nil => intro done _; simp [prontoDurations]
  | cons e todo ih =>
    intro done hlen
    have hidx : (done.length + numbersInPreamble) % 2 ^ env.uintBits = (pre ++ done).length := by
      rw [Nat.mod_eq_of_lt]
      · simp [hpre, numbersInPreamble]; omega
      · simp only [List.length_append, List.length_cons, hpre, numbersInPreamble] at hlen ⊢
        omega
    have hread : readAt (pre ++ done ++ e :: todo) ((pre ++ done).length) = .ok e :=
      readAt_append_cons (pre ++ done) todo e
    have hnext := ih (done ++ [e]) (by simpa using hlen)
    have hassoc : pre ++ (done ++ [e]) ++ todo = pre ++ done ++ e :: todo := by simp
    rw [hassoc, List.length_append, List.length_singleton] at hnext
    simp only [List.length_cons, prontoDurations, hidx, hread, hnext, bind, Except.bind, pure,
      Except.pure, List.map_cons]

/-- C5. Pronto clamping: whenever `sendPronto` accepts a message (16-bit elements, any
frequency code) and computes its durations, the microsecond duration stored for each data
element `e` is `min(e * timebase, 65535)` with the exact, unbounded product `e * timebase`,
never a wrapped or truncated product. -/
theorem sendPronto_clamps (env : Env) (d0 d1 d2 d3 : Nat) (rest : List Nat) (p : ProntoPlan)
    (hrest : ∀ e ∈ rest, e < 2 ^ 16)
    (hp : prontoPrepare env (d0 :: d1 :: d2 :: d3 :: rest) (d0 :: d1 :: d2 :: d3 :: rest).length
      = .ok (some p)) :
    p.durations = rest.map (fun e => min (e * prontoTimebase env d1) 65535) := by
  have hsum : (numbersInPreamble + 2 * d2 % 2 ^ env.uintBits + 2 * d3 % 2 ^ env.uintBits)
      % 2 ^ env.uintBits = (4 + 2 * d2 + 2 * d3) % 2 ^ env.uintBits :=
    add_mod_mod_mod 4 (2 * d2) (2 * d3) (2 ^ env.uintBits)
  have hcnt : (2 * d2 % 2 ^ env.uintBits + 2 * d3 % 2 ^ env.uintBits) % 2 ^ env.uintBits
      = (2 * d2 + 2 * d3) % 2 ^ env.uintBits := by
    simp [Nat.add_mod]
  have hmap : rest.map (fun e => prontoDuration e (prontoTimebase env d1))
      = rest.map (fun e => min (e * prontoTimebase env d1) 65535) := by
    apply List.map_congr_left
    intro e he
    exact prontoDuration_eq_min env e d1 (hrest e he)
  have hM : 0 < 2 ^ env.uintBits := Nat.two_pow_pos _
  have key : (4 + 2 * d2 + 2 * d3) % 2 ^ env.uintBits = rest.length + 4 →
      prontoDurations env (d0 :: d1 :: d2 :: d3 :: rest) (prontoTimebase env d1)
        ((2 * d2 + 2 * d3) % 2 ^ env.uintBits) 0
      = .ok (rest.map (fun e => min (e * prontoTimebase env d1) 65535)) := by
    intro hvalid
    have hlt : rest.length + 4 < 2 ^ env.uintBits := by
      rw [← hvalid]; exact Nat.mod_lt _ hM
    have hN : (2 * d2 + 2 * d3) % 2 ^ env.uintBits = rest.length := by
      have h1 : (4 + 2 * d2 + 2 * d3) % 2 ^ env.uintBits
          = (4 + (2 * d2 + 2 * d3) % 2 ^ env.uintBits) % 2 ^ env.uintBits := by
        rw [Nat.add_assoc, Nat.add_mod_mod]
      have h2 := Nat.mod_lt (2 * d2 + 2 * d3) hM
      rw [h1] at hvalid
      by_cases hw : 4 + (2 * d2 + 2 * d3) % 2 ^ env.uintBits < 2 ^ env.uintBits
      · rw [Nat.mod_eq_of_lt hw] at hvalid; omega
      · have h3 : (4 + (2 * d2 + 2 * d3) % 2 ^ env.uintBits) % 2 ^ env.uintBits
            = 4 + (2 * d2 + 2 * d3) % 2 ^ env.uintBits - 2 ^ env.uintBits := by
          rw [Nat.mod_eq_sub_mod (by omega), Nat.mod_eq_of_lt (by omega)]
        omega
    have hloop := prontoDurations_eq_map env (prontoTimebase env d1) [d0, d1, d2, d3] rfl rest []
      (by simpa using hlt)
    simp only [List.append_nil, List.length_nil] at hloop
    rw [hN, ← hmap]
    exact hloop
  unfold prontoPrepare at hp
  simp only [readAt, List.getElem?_cons_zero, List.getElem?_cons_succ, bind, Except.bind, pure,
    Except.pure, learnedToken, learnedNonModulatedToken, hsum, hcnt, List.length_cons] at hp
  by_cases hvalid : (4 + 2 * d2 + 2 * d3) % 2 ^ env.uintBits = rest.length + 4
  · have hk := key hvalid
    by_cases h0 : d0 = 0
    · subst h0
      cases hf : toFrequencyKHz d1 with
      | error e => simp [hf] at hp
      | ok k =>
        simp [hf, hvalid, hk] at hp
        rw [← hp]
    · by_cases h1 : d0 = 0x100
      · subst h1
        simp [hvalid, hk] at hp
        rw [← hp]
      · simp [h0, h1] at hp
  · by_cases h0 : d0 = 0
    · cases hf : toFrequencyKHz d1 with
      | error e => simp [h0, hf] at hp
      | ok k => simp [h0, hf, hvalid] at hp
    · by_cases h1 : d0 = 0x100
      · simp [h1, hvalid] at hp
      · simp [h0, h1] at hp

theorem sendPronto_clamps_witness :
    prontoPrepare avrEnv (0 :: 0x6D :: 1 :: 0 :: [0x10, 0xE00])
        (0 :: 0x6D :: 1 :: 0 :: [0x10, 0xE00]).length
      = .ok (some ⟨38, 2, 0, [416, 65535]⟩)
      ∧ [416, 65535] = [0x10, 0xE00].map (fun e => min (e * prontoTimebase avrEnv 0x6D) 65535) :=
  ⟨by decide, sendPronto_clamps avrEnv 0 0x6D 1 0 [0x10, 0xE00] ⟨38, 2, 0, [416, 65535]⟩
    (by decide) (by decide)⟩

/-- C9 (the code at the failing input). The empty text is tokenized into one element, and
`sendPronto` then reads `data[1]`, outside the array, before it looks at `size`. -/
theorem sendPronto_empty_text_reads_outside (env : Env) (numberOfRepeats : Nat) :
    parsePronto env [] = [0]
      ∧ sendProntoStr env [] numberOfRepeats = ⟨[], some Fault.outOfBounds⟩ := by
  have h : parsePronto env [] = [0] := by
    simp [parsePronto, parseProntoLoop, strtol, strtolDigits, numbersInPreamble,
      digitsInProntoNumber]
  refine ⟨h, ?_⟩
  simp [sendProntoStr, h, sendPronto, prontoPrepare, readAt, bind, Except.bind]

/-! ## Theorems on the Pronto text -/

theorem hexDigit_strtolDigit (x : Nat) (hx : x < 16) : strtolDigit (hexDigit x) = some x := by
  interval_cases x <;> decide

theorem hexDigit_not_space (x : Nat) (hx : x < 16) : isspace (hexDigit x) = false := by
  interval_cases x <;> decide

theorem hexDigit_not_sign (x : Nat) (hx : x < 16) :
    hexDigit x ≠ '-' ∧ hexDigit x ≠ '+' ∧ hexDigit x ≠ 'x' ∧ hexDigit x ≠ 'X' := by
  interval_cases x <;> decide

/-- The characters of `dumpNumber`: four digits, most significant first, and a space. -/
theorem dumpNumber_eq (v : Nat) :
    dumpNumber v = [hexDigit (v / 4096 % 16), hexDigit (v / 256 % 16), hexDigit (v / 16 % 16),
      hexDigit (v % 16), ' '] := by
  have hm : ∀ x : Nat, x &&& 15 = x % 16 := fun x => Nat.and_pow_two_sub_one_eq_mod x 4
  simp [dumpNumber, List.range, List.range.loop, digitsInProntoNumber, bitsInHexadecimal,
    hexMask, hm, Nat.shiftRight_eq_div_pow]

theorem strtolDigit_space : strtolDigit ' ' = none := by decide

/-- The result of `strtol` on a group of four digits that ends in a space, with or without a
space in front of it. -/
theorem strtol_four_digits (env : Env) (hl : 17 ≤ env.longBits) (lead : List Char)
    (hlead : lead = [] ∨ lead = [' ']) (a b c d : Char) (na nb nc nd : Nat)
    (hna : na < 16) (hnb : nb < 16) (hnc : nc < 16) (hnd : nd < 16)
    (ha : strtolDigit a = some na) (hb : strtolDigit b = some nb)
    (hc : strtolDigit c = some nc) (hd : strtolDigit d = some nd)
    (hsp : isspace a = false) (hminus : a ≠ '-') (hplus : a ≠ '+')
    (hx : b ≠ 'x') (hX : b ≠ 'X') (rest : List Char) :
    strtol env (lead ++ a :: b :: c :: d :: ' ' :: rest)
      = ((((((na * 16 + nb) * 16 + nc) * 16 + nd : Nat) : Int)), ' ' :: rest) := by
  have hdrop : (lead ++ a :: b :: c :: d :: ' ' :: rest).dropWhile isspace
      = a :: b :: c :: d :: ' ' :: rest := by
    rcases hlead with h | h <;> subst h
    · simp [List.dropWhile, hsp]
    · have : isspace ' ' = true := by decide
      simp [List.dropWhile, hsp, this]
  have hdigits : strtolDigits (a :: b :: c :: d :: ' ' :: rest) 0
      = (((na * 16 + nb) * 16 + nc) * 16 + nd, ' ' :: rest) := by
    simp [strtolDigits, ha, hb, hc, hd, hna, hnb, hnc, hnd, strtolDigit_space]
  have hval : ((na * 16 + nb) * 16 + nc) * 16 + nd < 2 ^ (env.longBits - 1) := by
    have h1 : 2 ^ 16 ≤ 2 ^ (env.longBits - 1) := Nat.pow_le_pow_right (by norm_num) (by omega)
    omega
  unfold strtol
  simp only [hdrop, List.head?_cons, Option.some.injEq, hminus, hplus, or_self, if_false,
    List.getElem?_cons_succ, List.getElem?_cons_zero, hx, hX, and_false, false_and, hdigits,
    List.length_cons, decide_False, Bool.false_eq_true, if_pos hval]
  rw [if_neg (by omega)]

theorem hexDigit_eq_hexChars (x : Nat) (hx : x < 16) : hexDigit x = hexChars.getD x ' ' := by
  interval_cases x <;> decide

theorem strtol_dumpNumber (env : Env) (hl : 17 ≤ env.longBits) (lead : List Char)
    (hlead : lead = [] ∨ lead = [' ']) (v : Nat) (hv : v < 65536) (rest : List Char) :
    strtol env (lead ++ (dumpNumber v ++ rest)) = ((v : Int), ' ' :: rest) := by
  have h1 : v / 4096 % 16 < 16 := Nat.mod_lt _ (by norm_num)
  have h2 : v / 256 % 16 < 16 := Nat.mod_lt _ (by norm_num)
  have h3 : v / 16 % 16 < 16 := Nat.mod_lt _ (by norm_num)
  have h4 : v % 16 < 16 := Nat.mod_lt _ (by norm_num)
  have hs := hexDigit_not_sign (v / 4096 % 16) h1
  have hx := hexDigit_not_sign (v / 256 % 16) h2
  have key := strtol_four_digits env hl lead hlead _ _ _ _ _ _ _ _ h1 h2 h3 h4
    (hexDigit_strtolDigit _ h1) (hexDigit_strtolDigit _ h2) (hexDigit_strtolDigit _ h3)
    (hexDigit_strtolDigit _ h4) (hexDigit_not_space _ h1) hs.1 hs.2.1 hx.2.2.1 hx.2.2.2 rest
  have hval : ((v / 4096 % 16 * 16 + v / 256 % 16) * 16 + v / 16 % 16) * 16 + v % 16 = v := by
    omega
  rw [hval] at key
  rw [dumpNumber_eq]
  exact key

theorem strtol_no_digits (env : Env) (lead : List Char) (hlead : lead = [] ∨ lead = [' ']) :
    strtol env lead = (0, lead) := by
  rcases hlead with h | h
  · subst h
    simp [strtol, strtolDigits, List.dropWhile]
  · subst h
    simp [strtol, strtolDigits, List.dropWhile]
    decide

theorem length_dumpNumbers (vs : List Nat) : (dumpNumbers vs).length = 5 * vs.length := by
  induction vs with
  | nil => rfl
  | cons v vs ih => simp [dumpNumbers, dumpNumber_eq, ih]; omega

/-- The tokenizer loop on the text of `dumpNumbers`. -/
theorem parseProntoLoop_dumpNumbers (env : Env) (hl : 17 ≤ env.longBits) :
    ∀ (vs : List Nat) (lead : List Char) (i : Nat) (data : List Nat),
      (lead = [] ∨ lead = [' ']) → (∀ v ∈ vs, v < 65536) →
      (∀ (j : Nat) (hj : j < vs.length), 4 ≤ i + j → vs[j] ≠ 0) → 4 ≤ i + vs.length →
      parseProntoLoop env (vs.length + 1) i (lead ++ dumpNumbers vs) data = data ++ vs := by
  intro vs
  induction vs with
  | nil =>
    intro lead i data hlead _ _ hi
    simp only [dumpNumbers, List.append_nil, List.length_nil, Nat.zero_add, parseProntoLoop,
      strtol_no_digits env lead hlead, numbersInPreamble]
    simp at hi
    simp [hi]
  | cons v vs ih =>
    intro lead i data hlead h16 hnz hi
    have hv : v < 65536 := h16 v (List.mem_cons_self _ _)
    have hstr : strtol env (lead ++ dumpNumbers (v :: vs)) = ((v : Int), ' ' :: dumpNumbers vs) :=
      strtol_dumpNumber env hl lead hlead v hv (dumpNumbers vs)
    have hcond : ¬ (((v : Int) = 0) ∧ numbersInPreamble ≤ i) := by
      rintro ⟨h0, h4⟩
      have := hnz 0 (by simp) (by simpa [numbersInPreamble] using h4)
      simp only [List.getElem_cons_zero] at this
      exact this (by exact_mod_cast h0)
    have hcast : ((v : Int) % 65536).toNat = v := by omega
    have hrest := ih [' '] (i + 1) (data ++ [v]) (Or.inr rfl)
      (fun w hw => h16 w (List.mem_cons_of_mem _ hw))
      (fun j hj h4 => by
        have := hnz (j + 1) (by simpa using hj) (by omega)
        simpa using this)
      (by simp at hi; omega)
    simp only [List.length_cons]
    rw [parseProntoLoop]
    simp only [hstr, hcond, if_false, hcast]
    rw [show ' ' :: dumpNumbers vs = [' '] ++ dumpNumbers vs from rfl, hrest]
    simp

/-- C7. Pronto text round trip: for every list of at least four 16-bit values without a zero
at an index of 4 or more, the text that `dumpNumber` prints for the values, one after the
other (each as four characters from `0-9A-F`, most significant digit first, and a space), is
tokenized by `sendPronto(const char *)` into exactly those values, in the same order and in
the same number. -/
theorem pronto_text_round_trip (env : Env) (hl : 32 ≤ env.longBits) (vs : List Nat)
    (hn : 4 ≤ vs.length) (h16 : ∀ v ∈ vs, v < 2 ^ 16)
    (hnz : ∀ (j : Nat) (hj : j < vs.length), 4 ≤ j → vs[j] ≠ 0) :
    (∀ v ∈ vs, dumpNumber v = [hexChars.getD (v / 4096) ' ', hexChars.getD (v / 256 % 16) ' ',
        hexChars.getD (v / 16 % 16) ' ', hexChars.getD (v % 16) ' ', ' '])
      ∧ parsePronto env (dumpNumbers vs) = vs
      ∧ (parsePronto env (dumpNumbers vs)).length = vs.length := by
  have hparse : parsePronto env (dumpNumbers vs) = vs := by
    have h := parseProntoLoop_dumpNumbers env (by omega) vs [] 0 [] (Or.inl rfl)
      (fun v hv => by simpa using h16 v hv) (fun j hj h4 => hnz j hj (by omega)) (by omega)
    simp only [List.nil_append] at h
    unfold parsePronto
    rw [length_dumpNumbers, digitsInProntoNumber]
    rw [show 5 * vs.length / (4 + 1) + 1 = vs.length + 1 by omega]
    exact h
  refine ⟨?_, hparse, by rw [hparse]⟩
  intro v hv
  have hv16 : v < 65536 := by simpa using h16 v hv
  rw [dumpNumber_eq, hexDigit_eq_hexChars _ (Nat.mod_lt _ (by norm_num)),
    hexDigit_eq_hexChars _ (Nat.mod_lt _ (by norm_num)),
    hexDigit_eq_hexChars _ (Nat.mod_lt _ (by norm_num)),
    hexDigit_eq_hexChars _ (Nat.mod_lt _ (by norm_num)),
    Nat.mod_eq_of_lt (show v / 4096 < 16 by omega)]

theorem pronto_text_round_trip_witness :
    parsePronto avrEnv (dumpNumbers [0, 0x6D, 0x0002, 0, 0x015E, 0x00A9, 0x0019, 0x06C3])
      = [0, 0x6D, 0x0002, 0, 0x015E, 0x00A9, 0x0019, 0x06C3] :=
  (pronto_text_round_trip avrEnv (by decide)
    [0, 0x6D, 0x0002, 0, 0x015E, 0x00A9, 0x0019, 0x06C3] (by decide) (by decide)
    (by decide)).2.1

/-! ## Theorems on the frequency conversions -/

/-- C10 (counterexample). At 63 Hz the frequency code wraps in its 16 bits: the code is 259,
which is 16 kHz, while 63 Hz is 0 kHz to the nearest integer. -/
theorem frequency_round_trip_drift_fails_at_63 :
    ¬ (∀ f : Nat, 1 ≤ f → f ≤ 65535 →
      ∃ code khz, toFrequencyCode f = .ok code ∧ toFrequencyKHz code = .ok khz
        ∧ khz ≤ (f + 500) / 1000 + 1 ∧ (f + 500) / 1000 ≤ khz + 1) := by
  intro h
  obtain ⟨code, khz, hc, hk, h1, _⟩ := h 63 (by norm_num) (by norm_num)
  have hc' : toFrequencyCode 63 = .ok 259 := by decide
  rw [hc'] at hc
  injection hc with hc
  subst hc
  have hk' : toFrequencyKHz 259 = .ok 16 := by decide
  rw [hk'] at hk
  injection hk with hk
  subst hk
  norm_num at h1

/-- C10 (amended). For every carrier frequency `f` with `64 ≤ f ≤ 65535` Hz,
`toFrequencyKHz(toFrequencyCode(f))` differs from `f` in kHz (`f / 1000` rounded to the
nearest integer) by at most 1. -/
theorem frequency_round_trip_drift (f : Nat) (h64 : 64 ≤ f) (hmax : f ≤ 65535) :
    ∃ code khz, toFrequencyCode f = .ok code ∧ toFrequencyKHz code = .ok khz
      ∧ khz ≤ (f + 500) / 1000 + 1 ∧ (f + 500) / 1000 ≤ khz + 1 := by
  have hfpos : 0 < f := by omega
  have hc1 : 4145146 / f * f ≤ 4145146 := Nat.div_mul_le_self _ _
  have hc2 : 4145146 < (4145146 / f + 1) * f :=
    (Nat.div_lt_iff_lt_mul hfpos).1 (Nat.lt_succ_self _)
  have hc63 : 63 ≤ 4145146 / f := by
    rw [Nat.le_div_iff_mul_le hfpos]; omega
  have hcmax : 4145146 / f ≤ 64767 := by
    have : 4145146 / f < 64768 := by
      rw [Nat.div_lt_iff_lt_mul hfpos]; omega
    omega
  have hcode : toFrequencyCode f = .ok (4145146 / f) := by
    have he : effectiveFrequency f = f := by simp [effectiveFrequency, hfpos]
    have hm : 4145146 / f % 2 ^ 16 = 4145146 / f := Nat.mod_eq_of_lt (by omega)
    have hne : f ≠ 0 := by omega
    unfold toFrequencyCode
    rw [he]
    simp only [udiv, if_neg hne, referenceFrequency, hm, bind, Except.bind, pure, Except.pure]
  have hkhz : toFrequencyKHz (4145146 / f)
      = .ok ((4145146 / (4145146 / f) + 500) / 1000) := by
    have hne : 4145146 / f ≠ 0 := by omega
    simp [toFrequencyKHz, udiv, referenceFrequency, hne, bind, Except.bind, pure, Except.pure]
  refine ⟨4145146 / f, _, hcode, hkhz, ?_, ?_⟩
  · generalize hc : 4145146 / f = c at *
    have hcpos : 0 < c := by omega
    have hg1 : 4145146 / c * c ≤ 4145146 := Nat.div_mul_le_self _ _
    by_cases h66 : 66 ≤ c
    · have hg : 4145146 / c ≤ f + 1000 := by
        by_contra hcon
        have h1 : (f + 1001) * c ≤ 4145146 / c * c := Nat.mul_le_mul_right c (by omega)
        have h2 : (f + 1001) * c = f * c + 1001 * c := by ring
        have h3 : (c + 1) * f = f * c + f := by ring
        omega
      omega
    · have hc3 : c = 63 ∨ c = 64 ∨ c = 65 := by omega
      rcases hc3 with h | h | h <;> subst h <;> norm_num at hc1 hc2 ⊢ <;> omega
  · have hfg : f ≤ 4145146 / (4145146 / f) := by
      rw [Nat.le_div_iff_mul_le (by omega)]
      calc f * (4145146 / f) = 4145146 / f * f := by ring
        _ ≤ 4145146 := hc1
    omega

theorem frequency_round_trip_drift_witness :
    ∃ code khz, toFrequencyCode 38000 = .ok code ∧ toFrequencyKHz code = .ok khz
      ∧ khz ≤ (38000 + 500) / 1000 + 1 ∧ (38000 + 500) / 1000 ≤ khz + 1 :=
  frequency_round_trip_drift 38000 (by norm_num) (by norm_num)

/-! ## Theorems on `dumpPronto` -/

theorem dumpDuration_ok (duration timebase : Nat) (h : timebase ≠ 0) :
    dumpDuration duration timebase = .ok (dumpNumber (durationGroup duration timebase)) := by
  simp [dumpDuration, durationGroup, udiv, h, bind, Except.bind, pure, Except.pure]

/-- The loop of `dumpSequence` on at most 255 elements: it ends and prints one group for each
element. -/
theorem dumpSequenceLoop_eq (env : Env) (timebase : Nat) (htb : timebase ≠ 0)
    (extra : List Nat) :
    ∀ (todo done : List Nat) (fuel : Nat), todo.length ≤ fuel →
      done.length + todo.length ≤ 255 →
      dumpSequenceLoop env (done ++ todo ++ extra) (done.length + todo.length) timebase fuel
          done.length
        = .ok (dumpNumbers (sequenceGroups env timebase done.length todo)) := by
  intro todo
  induction todo with
  | nil =>
    intro done fuel _ _
    cases fuel <;> simp [dumpSequenceLoop, sequenceGroups, dumpNumbers]
  | cons x todo ih =>
    intro done fuel hfuel hlen
    obtain ⟨fuel, rfl⟩ : ∃ k, fuel = k + 1 := ⟨fuel - 1, by simp at hfuel; omega⟩
    have hread : readAt (done ++ x :: todo ++ extra) done.length = .ok x := by
      have := readAt_append_cons done (todo ++ extra) x
      simpa using this
    have hnext := ih (done ++ [x]) fuel (by simp at hfuel; omega) (by simp at hlen ⊢; omega)
    have hassoc : done ++ [x] ++ todo ++ extra = done ++ x :: todo ++ extra := by simp
    have hl : (done ++ [x]).length = done.length + 1 := by simp
    rw [hassoc, hl] at hnext
    have hsum : done.length + 1 + todo.length = done.length + (x :: todo).length := by
      simp; omega
    rw [hsum] at hnext
    have hwrap : (done.length + 1) % 2 ^ 8 = done.length + 1 := by
      apply Nat.mod_eq_of_lt
      simp at hlen
      omega
    rw [dumpSequenceLoop, if_pos (by simp)]
    simp only [hread, dumpDuration_ok _ _ htb, hwrap, hnext, bind, Except.bind, pure,
      Except.pure, sequenceGroups, dumpNumbers]

theorem toTimebase_ok (f : Nat) (hf : f < 2 ^ 16) :
    ∃ tb, toTimebase f = .ok tb ∧ 0 < tb ∧ tb < 2 ^ 16 := by
  have he : effectiveFrequency f ≠ 0 := by
    unfold effectiveFrequency fallbackFrequency; split <;> omega
  have hle : effectiveFrequency f < 2 ^ 16 := by
    unfold effectiveFrequency fallbackFrequency; split <;> omega
  refine ⟨1000000 / effectiveFrequency f % 2 ^ 16, ?_, ?_, Nat.mod_lt _ (by norm_num)⟩
  · simp [toTimebase, udiv, he, microsecondsInSeconds, bind, Except.bind, pure, Except.pure]
  · generalize effectiveFrequency f = e at he hle
    by_cases h16 : 16 ≤ e
    · have h1 : 1000000 / e ≤ 62500 := by
        have : 1000000 / e < 62501 := by
          rw [Nat.div_lt_iff_lt_mul (by omega)]; omega
        omega
      have h2 : 15 ≤ 1000000 / e := by
        rw [Nat.le_div_iff_mul_le (by omega)]; omega
      omega
    · have : e < 16 := by omega
      interval_cases e <;> simp_all

theorem toFrequencyCode_ok (f : Nat) :
    ∃ code, toFrequencyCode f = .ok code ∧ code < 2 ^ 16 := by
  have he : effectiveFrequency f ≠ 0 := by
    unfold effectiveFrequency fallbackFrequency; split <;> omega
  refine ⟨4145146 / effectiveFrequency f % 2 ^ 16, ?_, Nat.mod_lt _ (by norm_num)⟩
  simp [toFrequencyCode, udiv, he, referenceFrequency, bind, Except.bind, pure, Except.pure]

/-- The text of `dumpPronto` for a capture of at most 256 entries: the four numbers of the
preamble, one group for each duration behind the leading gap, and the group of the default
gap. -/
theorem dumpPronto_eq (env : Env) (h16 : 16 ≤ env.uintBits) (s : IRrecv) (f : Nat)
    (gap : Nat) (xs extra : List Nat) (hbuf : s.rawbuf = gap :: (xs ++ extra))
    (hlen : s.rawlen = xs.length + 1) (h256 : s.rawlen ≤ 256) (tb code : Nat)
    (htb : toTimebase (f % 2 ^ 16) = .ok tb) (hcode : toFrequencyCode (f % 2 ^ 16) = .ok code) :
    dumpPronto env s f
      = .ok (dumpNumbers
        ((if f > 0 then learnedToken else learnedNonModulatedToken) :: code
          :: (s.rawlen + 1) / 2 % 2 ^ 16 :: 0
          :: (sequenceGroups env tb 0 xs ++ [durationGroup PRONTO_DEFAULT_GAP tb]))) := by
  obtain ⟨tb', htb', hpos, _⟩ := toTimebase_ok (f % 2 ^ 16) (Nat.mod_lt _ (by norm_num))
  rw [htb] at htb'
  injection htb' with htb'
  subst htb'
  have hne : tb ≠ 0 := by omega
  have hcount : (s.rawlen + 2 ^ env.uintBits - 1) % 2 ^ env.uintBits = xs.length := by
    have h1 : 2 ^ 16 ≤ 2 ^ env.uintBits := Nat.pow_le_pow_right (by norm_num) h16
    rw [hlen, show xs.length + 1 + 2 ^ env.uintBits - 1 = xs.length + 2 ^ env.uintBits by omega,
      Nat.add_mod_right, Nat.mod_eq_of_lt (by omega)]
  have hloop := dumpSequenceLoop_eq env tb hne extra xs [] 256 (by omega) (by simp; omega)
  simp only [List.nil_append, List.length_nil, Nat.zero_add] at hloop
  have hdist : ∀ (a b : List Nat), dumpNumbers (a ++ b) = dumpNumbers a ++ dumpNumbers b := by
    intro a b
    induction a with
    | nil => rfl
    | cons v a ih => simp [dumpNumbers, ih]
  unfold dumpPronto dumpSequence
  simp only [hcode, htb, hbuf, hcount, List.drop_succ_cons, List.drop_zero, hloop,
    dumpDuration_ok _ _ hne, bind, Except.bind, pure, Except.pure, hdist, dumpNumbers,
    List.append_nil, List.append_assoc, List.cons_append, List.nil_append]

/-- C8 (the code at the failing input). For a capture of three entries `dumpPronto` prints
seven groups and declares two intro pairs, which stand for eight groups; `sendPronto` parses
the seven groups and returns without transmitting. -/
theorem dumpPronto_odd_capture_malformed :
    dumpPronto avrEnv oddCapture 38000
        = .ok (dumpNumbers [0x0000, 0x006D, 0x0002, 0x0000, 0x015E, 0x00A9, 0x06C3])
      ∧ parsePronto avrEnv (dumpNumbers [0x0000, 0x006D, 0x0002, 0x0000, 0x015E, 0x00A9, 0x06C3])
        = [0x0000, 0x006D, 0x0002, 0x0000, 0x015E, 0x00A9, 0x06C3]
      ∧ 4 + 2 * (0x0002 + 0x0000) ≠ [0x0000, 0x006D, 0x0002, 0x0000, 0x015E, 0x00A9, 0x06C3].length
      ∧ sendProntoStr avrEnv
          (dumpNumbers [0x0000, 0x006D, 0x0002, 0x0000, 0x015E, 0x00A9, 0x06C3]) 0
        = ⟨[], none⟩ := by
  decide

/-! ## The way from a capture through the text back to the sender -/

theorem parsePronto_of_loop (env : Env) (vs : List Nat)
    (h : parseProntoLoop env (vs.length + 1) 0 (dumpNumbers vs) [] = vs) :
    parsePronto env (dumpNumbers vs) = vs := by
  have hlen : (dumpNumbers vs).length / (digitsInProntoNumber + 1) + 1 = vs.length + 1 := by
    rw [length_dumpNumbers]
    unfold digitsInProntoNumber
    omega
  unfold parsePronto
  rw [hlen]
  exact h

theorem parsePronto_dumpNumbers (env : Env) (hl : 17 ≤ env.longBits) (a b c d : Nat)
    (rest : List Nat) (h16 : ∀ v ∈ a :: b :: c :: d :: rest, v < 65536)
    (hnz : ∀ v ∈ rest, v ≠ 0) :
    parsePronto env (dumpNumbers (a :: b :: c :: d :: rest)) = a :: b :: c :: d :: rest := by
  have h := parseProntoLoop_dumpNumbers env hl (a :: b :: c :: d :: rest) [] 0 [] (Or.inl rfl)
    h16
    (fun j hj h4 => by
      obtain ⟨k, rfl⟩ : ∃ k, j = k + 4 := ⟨j - 4, by omega⟩
      simp only [List.getElem_cons_succ]
      exact hnz _ (List.getElem_mem _))
    (by simp)
  rw [List.nil_append, List.nil_append] at h
  exact parsePronto_of_loop env (a :: b :: c :: d :: rest) h

/-- What `sendPronto` computes from a message it accepts. -/
theorem prontoPrepare_accepts (env : Env) (d0 d1 d2 d3 khz : Nat) (rest : List Nat)
    (htoken : (d0 = 0x0000 ∧ toFrequencyKHz d1 = .ok khz) ∨ (d0 = 0x0100 ∧ khz = 0))
    (hsize : (4 + 2 * d2 + 2 * d3) % 2 ^ env.uintBits = rest.length + 4) :
    prontoPrepare env (d0 :: d1 :: d2 :: d3 :: rest) (rest.length + 4)
      = .ok (some ⟨khz, 2 * d2 % 2 ^ env.uintBits, 2 * d3 % 2 ^ env.uintBits,
          rest.map (fun e => prontoDuration e (prontoTimebase env d1))⟩) := by
  have hsum : (numbersInPreamble + 2 * d2 % 2 ^ env.uintBits + 2 * d3 % 2 ^ env.uintBits)
      % 2 ^ env.uintBits = (4 + 2 * d2 + 2 * d3) % 2 ^ env.uintBits :=
    add_mod_mod_mod 4 (2 * d2) (2 * d3) (2 ^ env.uintBits)
  have hcnt : (2 * d2 % 2 ^ env.uintBits + 2 * d3 % 2 ^ env.uintBits) % 2 ^ env.uintBits
      = (2 * d2 + 2 * d3) % 2 ^ env.uintBits := by
    simp [Nat.add_mod]
  have hM : 0 < 2 ^ env.uintBits := Nat.two_pow_pos _
  have hlt : rest.length + 4 < 2 ^ env.uintBits := by
    rw [← hsize]; exact Nat.mod_lt _ hM
  have hN : (2 * d2 + 2 * d3) % 2 ^ env.uintBits = rest.length := by
    have h1 : (4 + 2 * d2 + 2 * d3) % 2 ^ env.uintBits
        = (4 + (2 * d2 + 2 * d3) % 2 ^ env.uintBits) % 2 ^ env.uintBits := by
      rw [Nat.add_assoc, Nat.add_mod_mod]
    have h2 := Nat.mod_lt (2 * d2 + 2 * d3) hM
    have hsize' := hsize
    rw [h1] at hsize'
    by_cases hw : 4 + (2 * d2 + 2 * d3) % 2 ^ env.uintBits < 2 ^ env.uintBits
    · rw [Nat.mod_eq_of_lt hw] at hsize'; omega
    · have h3 : (4 + (2 * d2 + 2 * d3) % 2 ^ env.uintBits) % 2 ^ env.uintBits
          = 4 + (2 * d2 + 2 * d3) % 2 ^ env.uintBits - 2 ^ env.uintBits := by
        rw [Nat.mod_eq_sub_mod (by omega), Nat.mod_eq_of_lt (by omega)]
      omega
  have hloop := prontoDurations_eq_map env (prontoTimebase env d1) [d0, d1, d2, d3] rfl rest []
    (by simpa using hlt)
  simp only [List.append_nil, List.length_nil, List.cons_append, List.nil_append] at hloop
  unfold prontoPrepare
  simp only [readAt, List.getElem?_cons_zero, List.getElem?_cons_succ, bind, Except.bind, pure,
    Except.pure, learnedToken, learnedNonModulatedToken, hsum, hcnt, hN, hsize, hloop]
  rcases htoken with ⟨h0, hk⟩ | ⟨h0, hk⟩
  · subst h0
    simp [hk]
  · subst h0 hk
    simp

theorem length_sequenceGroups (env : Env) (tb : Nat) :
    ∀ (xs : List Nat) (i : Nat), (sequenceGroups env tb i xs).length = xs.length := by
  intro xs
  induction xs with
  | nil => intro i; rfl
  | cons x xs ih => intro i; simp [sequenceGroups, ih]

theorem getElem?_sequenceGroups (env : Env) (tb : Nat) :
    ∀ (xs : List Nat) (i k : Nat), k < xs.length →
      (sequenceGroups env tb i xs)[k]?
        = some (durationGroup (compensatedDuration env (i + k) (xs.getD k 0)) tb) := by
  intro xs
  induction xs with
  | nil => intro i k hk; simp at hk
  | cons x xs ih =>
    intro i k hk
    cases k with
    | zero => simp [sequenceGroups]
    | succ k =>
      have := ih (i + 1) k (by simpa using hk)
      simp only [sequenceGroups, List.getElem?_cons_succ, this, List.getD_cons_succ]
      rw [show i + 1 + k = i + (k + 1) by omega]

/-- The group printed for one duration and the microseconds `sendPronto` makes of it, when
the duration is neither too short to be printed as a non-zero group nor too long for 16
bits. -/
theorem group_bounds (env : Env) (h16 : 16 ≤ env.uintBits) (i x tb : Nat) (hpos : 0 < tb)
    (hlow : env.MARK_EXCESS_MICROS + (tb - tb / 2) ≤ x * env.MICROS_PER_TICK)
    (hhigh : x * env.MICROS_PER_TICK + env.MARK_EXCESS_MICROS + tb / 2 ≤ 65535) :
    0 < durationGroup (compensatedDuration env i x) tb
      ∧ durationGroup (compensatedDuration env i x) tb < 65536
      ∧ prontoDuration (durationGroup (compensatedDuration env i x) tb) tb
        ≤ x * env.MICROS_PER_TICK + env.MARK_EXCESS_MICROS + tb / 2
      ∧ x * env.MICROS_PER_TICK
        ≤ prontoDuration (durationGroup (compensatedDuration env i x) tb) tb
          + env.MARK_EXCESS_MICROS + tb / 2 := by
  have hw : 2 ^ 16 ≤ 2 ^ env.uintBits := Nat.pow_le_pow_right (by norm_num) h16
  have hx : x * env.MICROS_PER_TICK % 2 ^ env.uintBits % 2 ^ 32 = x * env.MICROS_PER_TICK := by
    have h1 : x * env.MICROS_PER_TICK % 2 ^ env.uintBits = x * env.MICROS_PER_TICK :=
      Nat.mod_eq_of_lt (by omega)
    rw [h1]
    exact Nat.mod_eq_of_lt (by omega)
  have hd : ∃ d, compensatedDuration env i x = d
      ∧ d ≤ x * env.MICROS_PER_TICK + env.MARK_EXCESS_MICROS
      ∧ x * env.MICROS_PER_TICK ≤ d + env.MARK_EXCESS_MICROS := by
    refine ⟨_, rfl, ?_, ?_⟩ <;>
    · unfold compensatedDuration
      simp only [hx]
      have hme : env.MARK_EXCESS_MICROS % 2 ^ 32 = env.MARK_EXCESS_MICROS :=
        Nat.mod_eq_of_lt (by omega)
      split
      · rw [hme]; omega
      · omega
  obtain ⟨d, hdeq, hd1, hd2⟩ := hd
  rw [hdeq]
  have hg : durationGroup d tb = (d + tb / 2) / tb := by
    unfold durationGroup
    rw [Nat.mod_eq_of_lt (show d + tb / 2 < 2 ^ 32 by omega)]
    apply Nat.mod_eq_of_lt
    have := Nat.div_le_self (d + tb / 2) tb
    omega
  have h1 : (d + tb / 2) / tb * tb ≤ d + tb / 2 := Nat.div_mul_le_self _ _
  have h2 : d + tb / 2 < ((d + tb / 2) / tb + 1) * tb :=
    (Nat.div_lt_iff_lt_mul hpos).1 (Nat.lt_succ_self _)
  have h3 : 0 < (d + tb / 2) / tb := Nat.div_pos (by omega) hpos
  have h4 : (d + tb / 2) / tb ≤ d + tb / 2 := Nat.div_le_self _ _
  have h5 : ((d + tb / 2) / tb + 1) * tb = (d + tb / 2) / tb * tb + tb := by ring
  have hp : prontoDuration ((d + tb / 2) / tb) tb = (d + tb / 2) / tb * tb := by
    unfold prontoDuration MICROSECONDS_T_MAX
    simp only [Nat.mod_eq_of_lt (show (d + tb / 2) / tb * tb < 2 ^ 32 by omega)]
    rw [if_pos (by omega)]
  rw [hg, hp]
  refine ⟨h3, by omega, by omega, by omega⟩

theorem gap_group_bounds (tb : Nat) (hpos : 0 < tb) (hlt : tb < 2 ^ 16) :
    0 < durationGroup PRONTO_DEFAULT_GAP tb ∧ durationGroup PRONTO_DEFAULT_GAP tb < 65536 := by
  have hmod : durationGroup PRONTO_DEFAULT_GAP tb < 65536 := by
    unfold durationGroup
    exact Nat.mod_lt _ (by norm_num)
  refine ⟨?_, hmod⟩
  unfold durationGroup PRONTO_DEFAULT_GAP
  rw [Nat.mod_eq_of_lt (show 45000 + tb / 2 < 2 ^ 32 by omega)]
  have h1 : 0 < (45000 + tb / 2) / tb := Nat.div_pos (by omega) hpos
  have h2 : (45000 + tb / 2) / tb ≤ 45000 + tb / 2 := Nat.div_le_self _ _
  have h3 : (45000 + tb / 2) / tb * tb ≤ 45000 + tb / 2 := Nat.div_mul_le_self _ _
  have h4 : (45000 + tb / 2) / tb < 2 ^ 16 := by
    by_cases h : tb = 1
    · subst h; norm_num
    · have h5 : (45000 + tb / 2) / tb * 2 ≤ (45000 + tb / 2) / tb * tb :=
        Nat.mul_le_mul_left _ (by omega)
      omega
  rw [Nat.mod_eq_of_lt h4]
  exact h1

theorem prontoTimebase_zero (env : Env) : prontoTimebase env 0 = 0 := by
  simp [prontoTimebase, microsecondsInSeconds, referenceFrequency]

/-- The transmission of a message that has an intro and no repeat block. -/
theorem prontoTransmit_intro_only (env : Env) (khz intros : Nat) (durations : List Nat)
    (numberOfRepeats : Nat) (h2 : 2 ≤ intros) (hlen : intros - 1 ≤ durations.length) :
    prontoTransmit env ⟨khz, intros, 0, durations⟩ numberOfRepeats
      = ⟨[Event.sendRaw (durations.take (intros - 1)) khz], none⟩ := by
  simp [prontoTransmit, callSendRaw, h2, hlen]

/-- C3 (counterexample). A mark of 180 ticks (9000 microseconds) captured at 38 kHz is printed
as `015E` and sent back as 350 * 26 = 9100 microseconds: 100 microseconds away from the
capture, where half a timebase is 13. -/
theorem pronto_round_trip_exceeds_half_timebase :
    ¬ ∃ text tb ds khz, dumpPronto avrEnv sampleCapture 38000 = .ok text
      ∧ toTimebase 38000 = .ok tb
      ∧ sendProntoStr avrEnv text 0 = ⟨[Event.sendRaw ds khz], none⟩
      ∧ ds.length = sampleCapture.rawlen - 1
      ∧ ∀ k, k + 1 < sampleCapture.rawlen →
        ds.getD k 0 ≤ sampleCapture.rawbuf.getD (k + 1) 0 * avrEnv.MICROS_PER_TICK + tb / 2
          ∧ sampleCapture.rawbuf.getD (k + 1) 0 * avrEnv.MICROS_PER_TICK
            ≤ ds.getD k 0 + tb / 2 := by
  rintro ⟨text, tb, ds, khz, htext, htb, hsend, _, hk⟩
  have h1 : dumpPronto avrEnv sampleCapture 38000
      = .ok (dumpNumbers [0x0000, 0x006D, 0x0002, 0x0000, 0x015E, 0x00A9, 0x0019, 0x06C3]) := by
    decide
  have h2 : toTimebase 38000 = .ok 26 := by decide
  have h3 : sendProntoStr avrEnv
      (dumpNumbers [0x0000, 0x006D, 0x0002, 0x0000, 0x015E, 0x00A9, 0x0019, 0x06C3]) 0
      = ⟨[Event.sendRaw [9100, 4394, 650] 38], none⟩ := by
    decide
  rw [h1] at htext
  injection htext with htext
  subst htext
  rw [h2] at htb
  injection htb with htb
  subst htb
  rw [h3] at hsend
  injection hsend with htrace _
  injection htrace with hev _
  injection hev with hds _
  subst hds
  have := (hk 0 (by decide)).1
  revert this
  decide

/-- C3 (amended). For every capture of even length between 2 and 256 and every 16-bit carrier
frequency `f` for which `sendPronto` derives from the printed frequency code the timebase
`toTimebase(f)` of the encoder, if every captured duration is at least `MARK_EXCESS_MICROS`
plus half a timebase (rounded up) and at most 65535 less `MARK_EXCESS_MICROS` and half a
timebase, then the text of `dumpPronto` is accepted by `sendPronto(const char *, 0)`, the only
event is one `sendRaw` whose sequence is as long as the capture without its leading gap, and
its k-th element differs from `rawbuf[k+1] * MICROS_PER_TICK` by at most
`MARK_EXCESS_MICROS + timebase / 2`. -/
theorem pronto_round_trip (env : Env) (h16 : 16 ≤ env.uintBits) (hl : 32 ≤ env.longBits)
    (s : IRrecv) (f tb code : Nat) (hf : f < 2 ^ 16)
    (heven : s.rawlen % 2 = 0) (h2 : 2 ≤ s.rawlen) (h256 : s.rawlen ≤ 256)
    (hbuf : s.rawlen ≤ s.rawbuf.length)
    (htb : toTimebase f = .ok tb) (hcode : toFrequencyCode f = .ok code)
    (hsame : prontoTimebase env code = tb)
    (hdur : ∀ k, k + 1 < s.rawlen →
      env.MARK_EXCESS_MICROS + (tb - tb / 2) ≤ s.rawbuf.getD (k + 1) 0 * env.MICROS_PER_TICK
        ∧ s.rawbuf.getD (k + 1) 0 * env.MICROS_PER_TICK + env.MARK_EXCESS_MICROS + tb / 2
          ≤ 65535) :
    ∃ text ds khz, dumpPronto env s f = .ok text
      ∧ sendProntoStr env text 0 = ⟨[Event.sendRaw ds khz], none⟩
      ∧ ds.length = s.rawlen - 1
      ∧ ∀ k, k + 1 < s.rawlen →
        ds.getD k 0
            ≤ s.rawbuf.getD (k + 1) 0 * env.MICROS_PER_TICK + env.MARK_EXCESS_MICROS + tb / 2
          ∧ s.rawbuf.getD (k + 1) 0 * env.MICROS_PER_TICK
            ≤ ds.getD k 0 + env.MARK_EXCESS_MICROS + tb / 2 := by
  -- the capture: a gap, the durations, and what the buffer holds behind them
  obtain ⟨gap, xs, extra, hbufeq, hxs⟩ : ∃ gap xs extra,
      s.rawbuf = gap :: (xs ++ extra) ∧ xs.length + 1 = s.rawlen := by
    cases hrb : s.rawbuf with
    | nil => rw [hrb] at hbuf; simp at hbuf; omega
    | cons gap tl =>
      rw [hrb] at hbuf
      simp only [List.length_cons] at hbuf
      refine ⟨gap, tl.take (s.rawlen - 1), tl.drop (s.rawlen - 1), ?_, ?_⟩
      · rw [List.take_append_drop]
      · rw [List.length_take]; omega
  have hfm : f % 2 ^ 16 = f := Nat.mod_eq_of_lt hf
  obtain ⟨tb', htb', hpos, htblt⟩ := toTimebase_ok f hf
  rw [htb] at htb'
  injection htb' with htb'
  subst htb'
  obtain ⟨code', hcode', hcodelt⟩ := toFrequencyCode_ok f
  rw [hcode] at hcode'
  injection hcode' with hcode'
  subst hcode'
  have hw : 2 ^ 16 ≤ 2 ^ env.uintBits := Nat.pow_le_pow_right (by norm_num) h16
  -- the text
  have htext := dumpPronto_eq env h16 s f gap xs extra hbufeq hxs.symm h256 tb code
    (by rw [hfm]; exact htb) (by rw [hfm]; exact hcode)
  -- the durations of the capture, by index
  have hx : ∀ k, k < xs.length → s.rawbuf.getD (k + 1) 0 = xs.getD k 0 := by
    intro k hk
    rw [hbufeq, List.getD_cons_succ, List.getD_append _ _ _ _ hk]
  have hgroup : ∀ k, k < xs.length →
      0 < durationGroup (compensatedDuration env (0 + k) (xs.getD k 0)) tb
      ∧ durationGroup (compensatedDuration env (0 + k) (xs.getD k 0)) tb < 65536
      ∧ prontoDuration (durationGroup (compensatedDuration env (0 + k) (xs.getD k 0)) tb) tb
        ≤ xs.getD k 0 * env.MICROS_PER_TICK + env.MARK_EXCESS_MICROS + tb / 2
      ∧ xs.getD k 0 * env.MICROS_PER_TICK
        ≤ prontoDuration (durationGroup (compensatedDuration env (0 + k) (xs.getD k 0)) tb) tb
          + env.MARK_EXCESS_MICROS + tb / 2 := by
    intro k hk
    have h := hdur k (by omega)
    rw [hx k hk] at h
    exact group_bounds env h16 (0 + k) (xs.getD k 0) tb hpos h.1 h.2
  have hgap := gap_group_bounds tb hpos htblt
  have hGmem : ∀ v ∈ sequenceGroups env tb 0 xs, 0 < v ∧ v < 65536 := by
    intro v hv
    obtain ⟨k, hk, hvk⟩ := List.getElem_of_mem hv
    rw [length_sequenceGroups] at hk
    have h1 := getElem?_sequenceGroups env tb xs 0 k hk
    rw [List.getElem?_eq_getElem (by rw [length_sequenceGroups]; exact hk), hvk] at h1
    injection h1 with h1
    rw [h1]
    exact ⟨(hgroup k hk).1, (hgroup k hk).2.1⟩
  -- the tokenizer gives the numbers back
  have hpairs : (s.rawlen + 1) / 2 % 2 ^ 16 < 65536 := Nat.mod_lt _ (by norm_num)
  have hparse := parsePronto_dumpNumbers env (by omega)
    (if f > 0 then learnedToken else learnedNonModulatedToken) code
    ((s.rawlen + 1) / 2 % 2 ^ 16) 0
    (sequenceGroups env tb 0 xs ++ [durationGroup PRONTO_DEFAULT_GAP tb])
    (by
      intro v hv
      simp only [List.mem_cons, List.mem_append, List.mem_singleton, List.not_mem_nil,
        or_false] at hv
      rcases hv with h | h | h | h | h | h
      · rw [h]; unfold learnedToken learnedNonModulatedToken; split <;> norm_num
      · rw [h]; exact hcodelt
      · rw [h]; exact hpairs
      · rw [h]; norm_num
      · exact (hGmem v h).2
      · rw [h]; exact hgap.2)
    (by
      intro v hv
      simp only [List.mem_append, List.mem_singleton] at hv
      rcases hv with h | h
      · have := (hGmem v h).1; omega
      · rw [h]; have := hgap.1; omega)
  -- the preamble is accepted
  have hp2 : 2 * ((s.rawlen + 1) / 2 % 2 ^ 16) = s.rawlen := by
    rw [Nat.mod_eq_of_lt (by omega)]; omega
  have hrestlen : (sequenceGroups env tb 0 xs ++ [durationGroup PRONTO_DEFAULT_GAP tb]).length
      = s.rawlen := by
    rw [List.length_append, length_sequenceGroups, List.length_singleton]; exact hxs
  have hcodene : f > 0 → code ≠ 0 := by
    intro _ h0
    rw [h0, prontoTimebase_zero] at hsame
    omega
  obtain ⟨khz, hkhz⟩ : ∃ khz,
      ((if f > 0 then learnedToken else learnedNonModulatedToken) = 0x0000
        ∧ toFrequencyKHz code = .ok khz)
      ∨ ((if f > 0 then learnedToken else learnedNonModulatedToken) = 0x0100 ∧ khz = 0) := by
    by_cases hf0 : f > 0
    · refine ⟨(4145146 / code + 500) / 1000, Or.inl ⟨by simp [hf0, learnedToken], ?_⟩⟩
      simp [toFrequencyKHz, udiv, referenceFrequency, hcodene hf0, bind, Except.bind, pure,
        Except.pure]
    · exact ⟨0, Or.inr ⟨by simp [hf0, learnedNonModulatedToken], rfl⟩⟩
  have hprep := prontoPrepare_accepts env
    (if f > 0 then learnedToken else learnedNonModulatedToken) code
    ((s.rawlen + 1) / 2 % 2 ^ 16) 0 khz
    (sequenceGroups env tb 0 xs ++ [durationGroup PRONTO_DEFAULT_GAP tb]) hkhz
    (by
      rw [hp2, hrestlen, Nat.mul_zero, Nat.add_zero]
      rw [Nat.mod_eq_of_lt (by omega)]; omega)
  rw [hp2, Nat.mul_zero, Nat.zero_mod, Nat.mod_eq_of_lt (show s.rawlen < 2 ^ env.uintBits by omega),
    hsame] at hprep
  -- the transmission
  have htrans := prontoTransmit_intro_only env khz s.rawlen
    ((sequenceGroups env tb 0 xs ++ [durationGroup PRONTO_DEFAULT_GAP tb]).map
      (fun e => prontoDuration e tb)) 0 h2
    (by rw [List.length_map, hrestlen]; omega)
  have htake : ((sequenceGroups env tb 0 xs ++ [durationGroup PRONTO_DEFAULT_GAP tb]).map
      (fun e => prontoDuration e tb)).take (s.rawlen - 1)
      = (sequenceGroups env tb 0 xs).map (fun e => prontoDuration e tb) := by
    rw [List.map_append]
    exact List.take_left' (by rw [List.length_map, length_sequenceGroups]; omega)
  rw [htake] at htrans
  have hsizeeq : (((if f > 0 then learnedToken else learnedNonModulatedToken) :: code
      :: (s.rawlen + 1) / 2 % 2 ^ 16 :: 0
      :: (sequenceGroups env tb 0 xs ++ [durationGroup PRONTO_DEFAULT_GAP tb])).length)
      = (sequenceGroups env tb 0 xs ++ [durationGroup PRONTO_DEFAULT_GAP tb]).length + 4 := by
    simp only [List.length_cons]
  refine ⟨_, (sequenceGroups env tb 0 xs).map (fun e => prontoDuration e tb), khz, htext, ?_,
    ?_, ?_⟩
  · unfold sendProntoStr sendPronto
    rw [hparse, hsizeeq, hprep]
    exact htrans
  · rw [List.length_map, length_sequenceGroups]; omega
  · intro k hk
    have hkx : k < xs.length := by omega
    have hget : ((sequenceGroups env tb 0 xs).map (fun e => prontoDuration e tb)).getD k 0
        = prontoDuration (durationGroup (compensatedDuration env (0 + k) (xs.getD k 0)) tb) tb := by
      rw [List.getD_eq_getElem?_getD, List.getElem?_map,
        getElem?_sequenceGroups env tb xs 0 k hkx]
      rfl
    rw [hget, hx k hkx]
    exact ⟨(hgroup k hkx).2.2.1, (hgroup k hkx).2.2.2⟩

theorem pronto_round_trip_witness :
    ∃ text ds khz, dumpPronto avrEnv sampleCapture 38000 = .ok text
      ∧ sendProntoStr avrEnv text 0 = ⟨[Event.sendRaw ds khz], none⟩
      ∧ ds.length = sampleCapture.rawlen - 1
      ∧ ∀ k, k + 1 < sampleCapture.rawlen →
        ds.getD k 0
            ≤ sampleCapture.rawbuf.getD (k + 1) 0 * avrEnv.MICROS_PER_TICK
              + avrEnv.MARK_EXCESS_MICROS + 26 / 2
          ∧ sampleCapture.rawbuf.getD (k + 1) 0 * avrEnv.MICROS_PER_TICK
            ≤ ds.getD k 0 + avrEnv.MARK_EXCESS_MICROS + 26 / 2 :=
  pronto_round_trip avrEnv (by decide) (by decide) sampleCapture 38000 26 109 (by norm_num)
    (by decide) (by decide) (by decide) (by decide) (by decide) (by decide) (by decide)
    (by
      intro k hk
      have hk3 : k < 3 := by
        have h4 : sampleCapture.rawlen = 4 := rfl
        omega
      interval_cases k <;> decide)

/-- At 36 kHz the encoder prints with a timebase of 27 microseconds (1000000 / 36000, rounded
down) and `sendPronto` replays the code 115 with 28 (115000000 / 4145146, rounded): the mark
of 9000 microseconds comes back as 337 * 28 = 9436. -/
theorem pronto_round_trip_timebase_differs :
    toTimebase 36000 = .ok 27 ∧ toFrequencyCode 36000 = .ok 115
      ∧ prontoTimebase avrEnv 115 = 28
      ∧ dumpPronto avrEnv sampleCapture 36000
        = .ok (dumpNumbers [0x0000, 0x0073, 0x0002, 0x0000, 0x0151, 0x00A3, 0x0018, 0x0683])
      ∧ sendProntoStr avrEnv
          (dumpNumbers [0x0000, 0x0073, 0x0002, 0x0000, 0x0151, 0x00A3, 0x0018, 0x0683]) 0
        = ⟨[Event.sendRaw [9436, 4564, 672] 36], none⟩ := by
  decide

/-! ## Theorems on the timebase arithmetic -/

/-- C11 (the code at the failing input). `toFrequencyKHz(0)` divides by zero: `sendPronto` on
the LEARNED message `0000 0000 0000 0000`, whose frequency code is 0, stops in that division
before anything is transmitted. -/
theorem sendPronto_learned_zero_code_divides_by_zero (env : Env) (numberOfRepeats : Nat) :
    toFrequencyKHz 0 = .error Fault.divisionByZero
      ∧ parsePronto avrEnv (dumpNumbers [0x0000, 0x0000, 0x0000, 0x0000]) = [0, 0, 0, 0]
      ∧ sendPronto env [0x0000, 0x0000, 0x0000, 0x0000] 4 numberOfRepeats
        = ⟨[], some Fault.divisionByZero⟩ := by
  have hk : toFrequencyKHz 0 = .error Fault.divisionByZero := by decide
  refine ⟨hk, by decide, ?_⟩
  simp [sendPronto, prontoPrepare, readAt, hk, learnedToken, bind, Except.bind, pure,
    Except.pure]

/-- The two conversions of the encoder never divide by zero: the divisor is
`effectiveFrequency`, which is never 0. -/
theorem encoder_conversions_defined (f : Nat) :
    toTimebase f = .ok (1000000 / effectiveFrequency f % 2 ^ 16)
      ∧ toFrequencyCode f = .ok (4145146 / effectiveFrequency f % 2 ^ 16) := by
  have he : effectiveFrequency f ≠ 0 := by
    unfold effectiveFrequency fallbackFrequency; split <;> omega
  constructor
  · simp [toTimebase, udiv, he, microsecondsInSeconds, bind, Except.bind, pure, Except.pure]
  · simp [toFrequencyCode, udiv, he, referenceFrequency, bind, Except.bind, pure, Except.pure]

/-- C13. Frequency fallback: `toTimebase(0)` equals `toTimebase(fallbackFrequency)`, with
`fallbackFrequency = 64767`, exactly. -/
theorem toTimebase_fallback :
    toTimebase 0 = toTimebase fallbackFrequency ∧ fallbackFrequency = 64767 := by
  decide

/-- C16 (the code at the failing input). For the frequency code 4295 the product
`1000000 * 4295` does not fit in 32 bits: `sendPronto` computes the timebase 0, while
`1000000 * 4295 / 4145146` rounded to the nearest integer is 1036. From the code 4293 on the
sum with half the reference frequency already wraps. -/
theorem prontoTimebase_wraps_at_4295 (env : Env) :
    prontoTimebase env 4295 = 0
      ∧ (1000000 * 4295 + 4145146 / 2) / 4145146 = 1036
      ∧ 1000000 * 4295 ≥ 2 ^ 32
      ∧ prontoTimebase env 4293 = 0
      ∧ (1000000 * 4293 + 4145146 / 2) / 4145146 = 1036 := by
  refine ⟨?_, by norm_num, by norm_num, ?_, by norm_num⟩
  · simp [prontoTimebase, microsecondsInSeconds, referenceFrequency]
  · simp [prontoTimebase, microsecondsInSeconds, referenceFrequency]

/-- Up to the frequency code 4292 the timebase of `sendPronto` is the exact quotient, rounded
to the nearest integer. -/
theorem prontoTimebase_exact (env : Env) (h16 : 16 ≤ env.uintBits) (code : Nat)
    (hc : code ≤ 4292) :
    prontoTimebase env code = (1000000 * code + 4145146 / 2) / 4145146 := by
  have hw : 2 ^ 16 ≤ 2 ^ env.uintBits := Nat.pow_le_pow_right (by norm_num) h16
  unfold prontoTimebase microsecondsInSeconds referenceFrequency
  rw [Nat.mod_eq_of_lt (show 1000000 * code < 2 ^ 32 by omega),
    Nat.mod_eq_of_lt (show 1000000 * code + 4145146 / 2 < 2 ^ 32 by omega)]
  apply Nat.mod_eq_of_lt
  have : (1000000 * code + 4145146 / 2) / 4145146 ≤ 1036 := by omega
  omega

/-- C17 (counterexample). At 40 kHz the quotient 4145146 / 40000 is 103.63: the nearest
integer is 104 and `toFrequencyCode` returns 103. -/
theorem toFrequencyCode_not_nearest :
    ¬ ∀ f : Nat, f < 2 ^ 16 →
      toFrequencyCode f
        = .ok ((2 * referenceFrequency + effectiveFrequency f) / (2 * effectiveFrequency f)) := by
  intro h
  have h1 := h 40000 (by norm_num)
  revert h1
  decide

/-- C17 (amended). For every carrier frequency `f`, `toFrequencyCode(f)` is the quotient
`4145146 / effectiveFrequency(f)` rounded down, in 16 bits, where `effectiveFrequency(f)` is
`f` if `f > 0` and 64767 otherwise. -/
theorem toFrequencyCode_rounds_down (f : Nat) :
    toFrequencyCode f = .ok (4145146 / effectiveFrequency f % 2 ^ 16)
      ∧ effectiveFrequency f = (if f > 0 then f else 64767) := by
  have he : effectiveFrequency f ≠ 0 := by
    unfold effectiveFrequency fallbackFrequency; split <;> omega
  constructor
  · simp [toFrequencyCode, udiv, he, referenceFrequency, bind, Except.bind, pure, Except.pure]
  · rfl

/-! ## Theorems on the compensation and on the indices of `sendPronto` -/

/-- C18 (the code at the failing input). The data of `dumpSequence` starts at `rawbuf[1]`, so
its even indices are the marks: for the mark `rawbuf[1]` of 180 ticks the excess is added
(9100, printed as `015E`), for the space `rawbuf[2]` of 90 ticks it is subtracted (4400,
printed as `00A9`); with the excess subtracted from the mark and added to the space the groups
would be `0156` and `00B1`. -/
theorem dumpPronto_adds_excess_to_marks :
    compensatedDuration avrEnv 0 180 = 180 * 50 + 100
      ∧ compensatedDuration avrEnv 1 90 = 90 * 50 - 100
      ∧ dumpPronto avrEnv sampleCapture 38000
        = .ok (dumpNumbers [0x0000, 0x006D, 0x0002, 0x0000, 0x015E, 0x00A9, 0x0019, 0x06C3])
      ∧ (180 * 50 + 100 + 26 / 2) / 26 = 0x015E ∧ (180 * 50 - 100 + 26 / 2) / 26 = 0x0156
      ∧ (90 * 50 - 100 + 26 / 2) / 26 = 0x00A9 ∧ (90 * 50 + 100 + 26 / 2) / 26 = 0x00B1 := by
  decide

/-- The direction of the compensation for every element that wraps nowhere: added at the even
indices of the data, which are the odd raw indices (marks), subtracted at the odd ones. -/
theorem compensatedDuration_direction (env : Env) (h16 : 16 ≤ env.uintBits) (i x : Nat)
    (hlow : env.MARK_EXCESS_MICROS ≤ x * env.MICROS_PER_TICK)
    (hhigh : x * env.MICROS_PER_TICK + env.MARK_EXCESS_MICROS < 2 ^ 16) :
    compensatedDuration env i x
      = if i % 2 = 0 then x * env.MICROS_PER_TICK + env.MARK_EXCESS_MICROS
        else x * env.MICROS_PER_TICK - env.MARK_EXCESS_MICROS := by
  have hw : 2 ^ 16 ≤ 2 ^ env.uintBits := Nat.pow_le_pow_right (by norm_num) h16
  have h1 : x * env.MICROS_PER_TICK % 2 ^ env.uintBits = x * env.MICROS_PER_TICK :=
    Nat.mod_eq_of_lt (by omega)
  have h2 : x * env.MICROS_PER_TICK % 2 ^ 32 = x * env.MICROS_PER_TICK :=
    Nat.mod_eq_of_lt (by omega)
  have hme : env.MARK_EXCESS_MICROS % 2 ^ 32 = env.MARK_EXCESS_MICROS :=
    Nat.mod_eq_of_lt (by omega)
  unfold compensatedDuration
  simp only [h1, h2, hme, Nat.and_one_is_mod]
  by_cases hi : i % 2 = 0
  · rw [if_neg (by omega), if_pos hi]
    exact Nat.mod_eq_of_lt (by omega)
  · rw [if_pos (by omega), if_neg hi]
    omega

/-- C20 (the code at the failing input). For the message `0100 006D 0000 0001 0010 0020` (no
intro, one repeat pair) and one repeat, `sendPronto` reads the deferred intro gap at the
index `intros - 1`, which is `0 - 1` in `unsigned int`: outside the two elements of
`durations`, and before anything is transmitted. -/
theorem sendPronto_no_intro_reads_outside :
    prontoPrepare avrEnv [0x0100, 0x006D, 0x0000, 0x0001, 0x0010, 0x0020] 6
        = .ok (some ⟨0, 0, 2, [416, 832]⟩)
      ∧ (0 + 2 ^ avrEnv.uintBits - 1) % 2 ^ avrEnv.uintBits = 65535
      ∧ sendPronto avrEnv [0x0100, 0x006D, 0x0000, 0x0001, 0x0010, 0x0020] 6 1
        = ⟨[], some Fault.outOfBounds⟩ := by
  decide

/-- C14 (the code at the failing input). Every one of the 50 pairs of the capture satisfies
the period check, the first with a mark of 0 ticks: `decodeMagiQuest` divides the space by
that mark before it checks the period. -/
theorem decodeMagiQuest_zero_mark_divides_by_zero :
    zeroMarkCapture.rawlen = 102 ∧ zeroMarkCapture.rawbuf.length = 102
      ∧ (List.range 50).all (fun k =>
        avrEnv.MATCH_MARK (zeroMarkCapture.rawbuf.getD (2 * k + 1) 0
          + zeroMarkCapture.rawbuf.getD (2 * k + 2) 0) 1150) = true
      ∧ decodeMagiQuest avrEnv zeroMarkCapture = .error Fault.divisionByZero := by
  decide

/-! ## Theorems on the transmission schedule -/

theorem readAt_of_lt (l : List Nat) (i : Nat) (h : i < l.length) :
    readAt l i = .ok (l.getD i 0) := by
  simp [readAt, List.getElem?_eq_getElem h]

theorem unsigned_pred (M x : Nat) (h1 : 1 ≤ x) (h2 : x < M) : (x + M - 1) % M = x - 1 := by
  rw [show x + M - 1 = x - 1 + M by omega, Nat.add_mod_right]
  exact Nat.mod_eq_of_lt (by omega)

/-- The loop over the repeats: the repeat block for each repetition, the gap in between. -/
theorem prontoRepeatLoop_eq (env : Env) (p : ProntoPlan) (h2 : 2 ≤ p.repeats)
    (hlen : p.intros + p.repeats = p.durations.length)
    (hsize : p.durations.length < 2 ^ env.uintBits) (n : Nat) :
    prontoRepeatLoop env p n
      = ⟨List.intersperse
          (Event.delay (p.durations.getD (p.intros + p.repeats - 1) 0 / 1000))
          (List.replicate n
            (Event.sendRaw ((p.durations.drop p.intros).take (p.repeats - 1)) p.khz)),
        none⟩ := by
  have hr : (p.repeats + 2 ^ env.uintBits - 1) % 2 ^ env.uintBits = p.repeats - 1 :=
    unsigned_pred _ _ (by omega) (by omega)
  have hir : (p.intros + p.repeats + 2 ^ env.uintBits - 1) % 2 ^ env.uintBits
      = p.intros + p.repeats - 1 := unsigned_pred _ _ (by omega) (by omega)
  have hcall : callSendRaw p.durations p.intros (p.repeats - 1) p.khz
      = .ok (Event.sendRaw ((p.durations.drop p.intros).take (p.repeats - 1)) p.khz) := by
    unfold callSendRaw
    rw [if_pos (by omega)]
  have hread := readAt_of_lt p.durations (p.intros + p.repeats - 1) (by omega)
  induction n with
  | zero => simp [prontoRepeatLoop]
  | succ n ih =>
    rw [prontoRepeatLoop, hr, hcall]
    cases n with
    | zero => simp
    | succ n =>
      simp only [hir, hread, ih, ne_eq, Nat.add_one_ne_zero, not_false_eq_true, if_true,
        List.replicate_succ, List.intersperse]

theorem countP_intersperse_replicate (sep ev : Event) (hs : sep.isDelay = true)
    (he : ev.isSendRaw = true) (hs' : sep.isSendRaw = false) (he' : ev.isDelay = false)
    (n : Nat) :
    (List.intersperse sep (List.replicate n ev)).countP Event.isSendRaw = n
      ∧ (List.intersperse sep (List.replicate n ev)).countP Event.isDelay = n - 1 := by
  induction n with
  | zero => simp
  | succ n ih =>
    cases n with
    | zero => simp [List.replicate, List.intersperse, he, he']
    | succ n =>
      simp only [List.replicate_succ, List.intersperse] at ih ⊢
      simp only [List.countP_cons, he, he', hs, hs', ih.1, ih.2]
      constructor <;> simp

/-- C19. Pronto transmission schedule: for every structurally valid message with
`intros = 2*data[2] ≥ 2` and `repeats = 2*data[3]` and every repeat count `n`, the trace of
`sendPronto` is the schedule of the specification: one `sendRaw` of the first `intros - 1`
intro durations and then, only if `repeats ≥ 2` and `n ≥ 1`, a delay of the intro's last
duration / 1000 ms and `n` `sendRaw` calls of the first `repeats - 1` repeat durations, with
a delay of the repeat block's last duration / 1000 ms between two calls and none after the
last; that is `n + 1` transmissions and `n` delays, or 1 transmission and no delay. Every
`sendRaw` has the carrier `khz`: `toFrequencyKHz(data[1])` for the token `0x0000`, 0 for
`0x0100`. -/
theorem sendPronto_schedule (env : Env) (d0 d1 d2 d3 khz : Nat) (rest : List Nat)
    (numberOfRepeats : Nat)
    (htoken : (d0 = 0x0000 ∧ toFrequencyKHz d1 = .ok khz) ∨ (d0 = 0x0100 ∧ khz = 0))
    (hvalid : 4 + 2 * d2 + 2 * d3 = rest.length + 4)
    (hsize : rest.length + 4 < 2 ^ env.uintBits)
    (hintro : 2 ≤ 2 * d2) :
    sendPronto env (d0 :: d1 :: d2 :: d3 :: rest) (rest.length + 4) numberOfRepeats
        = ⟨prontoSchedule (rest.map (fun e => prontoDuration e (prontoTimebase env d1)))
            (2 * d2) (2 * d3) khz numberOfRepeats, none⟩
      ∧ (prontoSchedule (rest.map (fun e => prontoDuration e (prontoTimebase env d1)))
            (2 * d2) (2 * d3) khz numberOfRepeats).countP Event.isSendRaw
          = (if 2 * d3 = 0 ∨ numberOfRepeats = 0 then 1 else numberOfRepeats + 1)
      ∧ (prontoSchedule (rest.map (fun e => prontoDuration e (prontoTimebase env d1)))
            (2 * d2) (2 * d3) khz numberOfRepeats).countP Event.isDelay
          = (if 2 * d3 = 0 ∨ numberOfRepeats = 0 then 0 else numberOfRepeats) := by
  have hI : 2 * d2 % 2 ^ env.uintBits = 2 * d2 := Nat.mod_eq_of_lt (by omega)
  have hR : 2 * d3 % 2 ^ env.uintBits = 2 * d3 := Nat.mod_eq_of_lt (by omega)
  have hprep := prontoPrepare_accepts env d0 d1 d2 d3 khz rest htoken
    (by rw [hvalid]; exact Nat.mod_eq_of_lt hsize)
  rw [hI, hR] at hprep
  generalize hd : rest.map (fun e => prontoDuration e (prontoTimebase env d1)) = durations
    at hprep ⊢
  have hlen : durations.length = 2 * d2 + 2 * d3 := by
    rw [← hd, List.length_map]; omega
  refine ⟨?_, ?_, ?_⟩
  · unfold sendPronto
    rw [hprep]
    have hcall : callSendRaw durations 0 (2 * d2 - 1) khz
        = .ok (Event.sendRaw (durations.take (2 * d2 - 1)) khz) := by
      unfold callSendRaw
      rw [if_pos (by omega), List.drop_zero]
    unfold prontoTransmit prontoSchedule
    simp only [ge_iff_le, hintro, if_true, hcall]
    by_cases hstop : 2 * d3 = 0 ∨ numberOfRepeats = 0
    · simp only [hstop, if_true]
    · have hgap : (2 * d2 + 2 ^ env.uintBits - 1) % 2 ^ env.uintBits = 2 * d2 - 1 :=
        unsigned_pred _ _ (by omega) (by omega)
      have hread := readAt_of_lt durations (2 * d2 - 1) (by omega)
      have hloop := prontoRepeatLoop_eq env ⟨khz, 2 * d2, 2 * d3, durations⟩ (by
        show 2 ≤ 2 * d3
        omega) (by
        show 2 * d2 + 2 * d3 = durations.length
        omega) (by
        show durations.length < 2 ^ env.uintBits
        omega) numberOfRepeats
      simp only [hstop, if_false, hgap, hread, hloop, List.singleton_append]
  · unfold prontoSchedule
    by_cases hstop : 2 * d3 = 0 ∨ numberOfRepeats = 0
    · rw [if_pos hstop, if_pos hstop]
      rfl
    · have hc := (countP_intersperse_replicate
        (Event.delay (durations.getD (2 * d2 + 2 * d3 - 1) 0 / 1000))
        (Event.sendRaw ((durations.drop (2 * d2)).take (2 * d3 - 1)) khz)
        rfl rfl rfl rfl numberOfRepeats).1
      rw [if_neg hstop, if_neg hstop, List.countP_cons, List.countP_cons, hc]
      simp [Event.isSendRaw]
  · unfold prontoSchedule
    by_cases hstop : 2 * d3 = 0 ∨ numberOfRepeats = 0
    · rw [if_pos hstop, if_pos hstop]
      rfl
    · have hc := (countP_intersperse_replicate
        (Event.delay (durations.getD (2 * d2 + 2 * d3 - 1) 0 / 1000))
        (Event.sendRaw ((durations.drop (2 * d2)).take (2 * d3 - 1)) khz)
        rfl rfl rfl rfl numberOfRepeats).2
      rw [if_neg hstop, if_neg hstop, List.countP_cons, List.countP_cons, hc]
      simp [Event.isDelay]
      omega

theorem sendPronto_schedule_witness :
    sendPronto avrEnv (0x0000 :: 0x006D :: 2 :: 1 :: [0x10, 0x20, 0x10, 0xE00, 0x10, 0xF00])
        ([0x10, 0x20, 0x10, 0xE00, 0x10, 0xF00].length + 4) 3
      = ⟨[Event.sendRaw [416, 832, 416] 38, Event.delay 65, Event.sendRaw [416] 38,
          Event.delay 65, Event.sendRaw [416] 38, Event.delay 65, Event.sendRaw [416] 38],
        none⟩ :=
  (sendPronto_schedule avrEnv 0x0000 0x006D 2 1 38 [0x10, 0x20, 0x10, 0xE00, 0x10, 0xF00] 3
    (Or.inl ⟨rfl, by decide⟩) (by decide) (by decide) (by decide)).1.trans (by decide)

/-! ## Theorems on the `String` overloads -/

theorem concat_ok (s : ArduinoString) (c : Char) (h : s.chars.length < s.capacity) :
    s.concat c = (⟨s.chars ++ [c], s.capacity⟩, 1) := by
  simp [ArduinoString.concat, h]

theorem foldl_dumpDigitString (g : Nat → Nat) :
    ∀ (is : List Nat) (s : ArduinoString) (n : Nat), s.chars.length + is.length ≤ s.capacity →
      is.foldl (fun (acc : ArduinoString × Nat) i =>
          let r := dumpDigitString acc.1 (g i)
          (r.1, acc.2 + r.2)) (s, n)
        = (⟨s.chars ++ is.map (fun i => hexDigit (g i)), s.capacity⟩, n + is.length) := by
  intro is
  induction is with
  | nil => intro s n _; simp
  | cons i is ih =>
    intro s n h
    simp only [List.length_cons] at h
    have hc : dumpDigitString s (g i) = (⟨s.chars ++ [hexDigit (g i)], s.capacity⟩, 1) :=
      concat_ok s (hexDigit (g i)) (by omega)
    have hnext := ih ⟨s.chars ++ [hexDigit (g i)], s.capacity⟩ (n + 1)
      (by simp only [List.length_append, List.length_singleton]; omega)
    rw [List.foldl_cons]
    simp only [hc]
    rw [hnext]
    simp only [List.map_cons, List.append_assoc, List.singleton_append, List.length_cons,
      Nat.add_assoc, Nat.add_comm 1]

/-- With room for five characters `dumpNumber(String *, ...)` appends what the `Print`
overload prints and returns 5. -/
theorem dumpNumberString_ok (s : ArduinoString) (v : Nat)
    (h : s.chars.length + 5 ≤ s.capacity) :
    dumpNumberString s v = (⟨s.chars ++ dumpNumber v, s.capacity⟩, 5) := by
  have hfold := foldl_dumpDigitString
    (fun i => (v >>> (bitsInHexadecimal * (digitsInProntoNumber - 1 - i))) &&& hexMask)
    (List.range digitsInProntoNumber) s 0
    (by simp only [List.length_range, digitsInProntoNumber]; omega)
  have hlen : (List.range digitsInProntoNumber).length = 4 := by
    simp [digitsInProntoNumber]
  unfold dumpNumberString dumpNumber
  simp only [hfold]
  rw [concat_ok _ _ (by
    simp only [List.length_append, List.length_map, hlen]; omega)]
  simp only [hlen, List.append_assoc]

theorem dumpDurationString_ok (s : ArduinoString) (duration timebase : Nat)
    (htb : timebase ≠ 0) (h : s.chars.length + 5 ≤ s.capacity) :
    dumpDurationString s duration timebase
      = .ok (⟨s.chars ++ dumpNumber (durationGroup duration timebase), s.capacity⟩, 5) := by
  have hn := dumpNumberString_ok s (durationGroup duration timebase) h
  unfold durationGroup at hn ⊢
  simp only [dumpDurationString, udiv, if_neg htb, bind, Except.bind, pure, Except.pure, hn]

/-- The loop of `dumpSequence(String *, ...)` on at most 255 elements, with room in the
string: it appends the groups of the `Print` overload and adds 5 for each. -/
theorem dumpSequenceStringLoop_eq (env : Env) (timebase : Nat) (htb : timebase ≠ 0)
    (extra : List Nat) :
    ∀ (todo done : List Nat) (fuel : Nat) (s : ArduinoString) (size : Nat),
      todo.length ≤ fuel → done.length + todo.length ≤ 255 →
      s.chars.length + 5 * todo.length ≤ s.capacity →
      dumpSequenceStringLoop env (done ++ todo ++ extra) (done.length + todo.length) timebase
          fuel done.length s size
        = .ok (⟨s.chars ++ dumpNumbers (sequenceGroups env timebase done.length todo),
            s.capacity⟩, size + 5 * todo.length) := by
  intro todo
  induction todo with
  | nil =>
    intro done fuel s size _ _ _
    cases fuel <;> simp [dumpSequenceStringLoop, sequenceGroups, dumpNumbers]
  | cons x todo ih =>
    intro done fuel s size hfuel hlen hroom
    obtain ⟨fuel, rfl⟩ : ∃ k, fuel = k + 1 := ⟨fuel - 1, by simp at hfuel; omega⟩
    simp only [List.length_cons] at hfuel hlen hroom
    have hread : readAt (done ++ x :: todo ++ extra) done.length = .ok x := by
      have := readAt_append_cons done (todo ++ extra) x
      simpa using this
    have hdur := dumpDurationString_ok s (compensatedDuration env done.length x) timebase htb
      (by omega)
    have hnext := ih (done ++ [x]) fuel
      ⟨s.chars ++ dumpNumber (durationGroup (compensatedDuration env done.length x) timebase),
        s.capacity⟩ (size + 5) (by omega)
      (by simp only [List.length_append, List.length_singleton]; omega)
      (by
        simp only [List.length_append, dumpNumber_eq, List.length_cons, List.length_nil]
        omega)
    have hassoc : done ++ [x] ++ todo ++ extra = done ++ x :: todo ++ extra := by simp
    have hl : (done ++ [x]).length = done.length + 1 := by simp
    rw [hassoc, hl] at hnext
    have hsum : done.length + 1 + todo.length = done.length + (todo.length + 1) := by omega
    rw [hsum] at hnext
    have hwrap : (done.length + 1) % 2 ^ 8 = done.length + 1 := by
      apply Nat.mod_eq_of_lt
      omega
    dsimp only at hnext
    rw [List.length_cons, dumpSequenceStringLoop, if_pos (by omega)]
    simp only [hread, hdur, hwrap, hnext, bind, Except.bind, sequenceGroups, dumpNumbers]
    rw [List.append_assoc, show size + 5 + 5 * todo.length = size + 5 * (todo.length + 1) by
      omega]

theorem dumpNumbers_append (a b : List Nat) :
    dumpNumbers (a ++ b) = dumpNumbers a ++ dumpNumbers b := by
  induction a with
  | nil => rfl
  | cons v a ih => simp [dumpNumbers, ih]

/-- C12. `dumpPronto(String *)` returns the number of characters it appended: for every
capture with `1 ≤ rawlen ≤ 256`, every frequency and every string with room for the text (so
that every `concat` succeeds), the string grows by the text the `Print` overload prints, and
the size returned is the length of that text, `5 * (rawlen + 4)`. -/
theorem dumpProntoString_size (env : Env) (h16 : 16 ≤ env.uintBits) (recv : IRrecv)
    (str : ArduinoString) (f : Nat) (h1 : 1 ≤ recv.rawlen) (h256 : recv.rawlen ≤ 256)
    (hbuf : recv.rawlen ≤ recv.rawbuf.length)
    (hroom : str.chars.length + 5 * (recv.rawlen + 4) ≤ str.capacity) :
    ∃ text, dumpPronto env recv f = .ok text
      ∧ text.length = 5 * (recv.rawlen + 4)
      ∧ dumpProntoString env recv str f
        = .ok (⟨str.chars ++ text, str.capacity⟩, 5 * (recv.rawlen + 4)) := by
  obtain ⟨gap, xs, extra, hbufeq, hxs⟩ : ∃ gap xs extra,
      recv.rawbuf = gap :: (xs ++ extra) ∧ xs.length + 1 = recv.rawlen := by
    cases hrb : recv.rawbuf with
    | nil => rw [hrb] at hbuf; simp at hbuf; omega
    | cons gap tl =>
      rw [hrb] at hbuf
      simp only [List.length_cons] at hbuf
      refine ⟨gap, tl.take (recv.rawlen - 1), tl.drop (recv.rawlen - 1), ?_, ?_⟩
      · rw [List.take_append_drop]
      · rw [List.length_take]; omega
  obtain ⟨tb, htb, hpos, _⟩ := toTimebase_ok (f % 2 ^ 16) (Nat.mod_lt _ (by norm_num))
  obtain ⟨code, hcode, _⟩ := toFrequencyCode_ok (f % 2 ^ 16)
  have hne : tb ≠ 0 := by omega
  have htext := dumpPronto_eq env h16 recv f gap xs extra hbufeq hxs.symm h256 tb code htb hcode
  have hcount : (recv.rawlen + 2 ^ env.uintBits - 1) % 2 ^ env.uintBits = xs.length := by
    have hw : 2 ^ 16 ≤ 2 ^ env.uintBits := Nat.pow_le_pow_right (by norm_num) h16
    rw [unsigned_pred _ _ h1 (by omega)]; omega
  have hlen : (dumpNumbers
      ((if f > 0 then learnedToken else learnedNonModulatedToken) :: code
        :: (recv.rawlen + 1) / 2 % 2 ^ 16 :: 0
        :: (sequenceGroups env tb 0 xs ++ [durationGroup PRONTO_DEFAULT_GAP tb]))).length
      = 5 * (recv.rawlen + 4) := by
    rw [length_dumpNumbers]
    simp only [List.length_cons, List.length_append, length_sequenceGroups, List.length_nil]
    omega
  refine ⟨_, htext, hlen, ?_⟩
  -- the four numbers of the preamble
  have e0 := dumpNumberString_ok str
    (if f > 0 then learnedToken else learnedNonModulatedToken) (by omega)
  have e1 := dumpNumberString_ok
    ⟨str.chars ++ dumpNumber (if f > 0 then learnedToken else learnedNonModulatedToken),
      str.capacity⟩ code
    (by simp only [List.length_append, dumpNumber_eq, List.length_cons, List.length_nil]; omega)
  have e2 := dumpNumberString_ok
    ⟨str.chars ++ dumpNumber (if f > 0 then learnedToken else learnedNonModulatedToken)
      ++ dumpNumber code, str.capacity⟩ ((recv.rawlen + 1) / 2 % 2 ^ 16)
    (by simp only [List.length_append, dumpNumber_eq, List.length_cons, List.length_nil]; omega)
  have e3 := dumpNumberString_ok
    ⟨str.chars ++ dumpNumber (if f > 0 then learnedToken else learnedNonModulatedToken)
      ++ dumpNumber code ++ dumpNumber ((recv.rawlen + 1) / 2 % 2 ^ 16), str.capacity⟩ 0
    (by simp only [List.length_append, dumpNumber_eq, List.length_cons, List.length_nil]; omega)
  dsimp only at e1 e2 e3
  -- the durations
  have hloop := dumpSequenceStringLoop_eq env tb hne extra xs [] 256
    ⟨str.chars ++ dumpNumber (if f > 0 then learnedToken else learnedNonModulatedToken)
      ++ dumpNumber code ++ dumpNumber ((recv.rawlen + 1) / 2 % 2 ^ 16) ++ dumpNumber 0,
      str.capacity⟩ 0 (by omega) (by simp only [List.length_nil]; omega)
    (by simp only [List.length_append, dumpNumber_eq, List.length_cons, List.length_nil]; omega)
  simp only [List.nil_append, List.length_nil, Nat.zero_add] at hloop
  -- the gap
  have hgap := dumpDurationString_ok
    ⟨str.chars ++ dumpNumber (if f > 0 then learnedToken else learnedNonModulatedToken)
      ++ dumpNumber code ++ dumpNumber ((recv.rawlen + 1) / 2 % 2 ^ 16) ++ dumpNumber 0
      ++ dumpNumbers (sequenceGroups env tb 0 xs), str.capacity⟩ PRONTO_DEFAULT_GAP tb hne
    (by
      simp only [List.length_append, dumpNumber_eq, List.length_cons, List.length_nil,
        length_dumpNumbers, length_sequenceGroups]
      omega)
  dsimp only at hgap
  unfold dumpProntoString dumpSequenceString
  simp only [htb, hcode, hbufeq, hcount, List.drop_succ_cons, List.drop_zero, e0, e1, e2, e3,
    hloop, hgap, bind, Except.bind, pure, Except.pure]
  simp only [dumpNumbers, dumpNumbers_append, List.append_assoc, List.append_nil]
  rw [show 5 + 5 + 5 + 5 + (5 * xs.length + 5) = 5 * (recv.rawlen + 4) by omega]

theorem dumpProntoString_size_witness :
    ∃ text, dumpPronto avrEnv necCapture 38000 = .ok text
      ∧ text.length = 360
      ∧ dumpProntoString avrEnv necCapture ⟨[], 360⟩ 38000 = .ok (⟨text, 360⟩, 360) :=
  dumpProntoString_size avrEnv (by decide) necCapture ⟨[], 360⟩ 38000 (by decide) (by decide)
    (by decide) (by decide)

/-! ## Theorems on the bits of a MagiQuest capture -/

theorem readAt_ok_getD (l : List Nat) (i v : Nat) (h : readAt l i = .ok v) :
    l.getD i 0 = v := by
  unfold readAt at h
  cases hl : l[i]? with
  | none => simp [hl] at h
  | some w =>
    simp only [hl, Except.ok.injEq] at h
    simp [hl, h]

theorem length_classifiedBits (raw : List Nat) :
    ∀ (n offset : Nat), (classifiedBits raw offset n).length = n := by
  intro n
  induction n with
  | zero => intro offset; rfl
  | succ n ih => intro offset; simp [classifiedBits, ih]

theorem bitsValue_lt : ∀ (bs : List Bool), bitsValue bs < 2 ^ bs.length := by
  intro bs
  induction bs with
  | nil => simp [bitsValue]
  | cons b bs ih =>
    have hb : b.toNat ≤ 1 := Bool.toNat_le b
    have h1 : b.toNat * 2 ^ bs.length ≤ 1 * 2 ^ bs.length := Nat.mul_le_mul_right _ hb
    have h2 : 2 ^ (bs.length + 1) = 2 * 2 ^ bs.length := by ring
    simp only [bitsValue, List.length_cons, h2]
    omega

/-- A run of the decoder loop that ends without a mismatch has shifted the classified bits of
the remaining pairs into `llword`, the first pair into the most significant place. -/
theorem decodeMagiQuestLoop_some (env : Env) (raw : List Nat) (rawlen : Nat) :
    ∀ (n fuel offset acc k o l : Nat), offset + 2 * n + 1 = rawlen → acc < 2 ^ k →
      k + n ≤ 64 →
      decodeMagiQuestLoop env raw rawlen fuel offset acc = .ok (some (o, l)) →
      o = offset + 2 * n ∧ l = acc * 2 ^ n + bitsValue (classifiedBits raw offset n) := by
  intro n
  induction n with
  | zero =>
    intro fuel offset acc k o l hlen _ _ h
    rw [decodeMagiQuestLoop_done env raw rawlen fuel offset acc (by omega)] at h
    simp only [Except.ok.injEq, Option.some.injEq, Prod.mk.injEq] at h
    simp [classifiedBits, bitsValue, h.1, h.2]
  | succ n ih =>
    intro fuel offset acc k o l hlen hacc hk h
    have h2acc : 2 * acc < 2 ^ 64 := by
      have h1 : 2 ^ (k + 1) ≤ 2 ^ 64 := Nat.pow_le_pow_right (by norm_num) (by omega)
      have h2 : 2 ^ (k + 1) = 2 * 2 ^ k := by ring
      omega
    have hk1 : 2 ^ (k + 1) = 2 * 2 ^ k := by ring
    cases fuel with
    | zero => simp [decodeMagiQuestLoop, show offset + 1 < rawlen by omega] at h
    | succ fuel =>
      rw [decodeMagiQuestLoop, if_pos (by omega)] at h
      cases hm : readAt raw offset with
      | error e => simp [hm, bind, Except.bind] at h
      | ok mark =>
        cases hs : readAt raw (offset + 1) with
        | error e => simp [hm, hs, bind, Except.bind] at h
        | ok space =>
          have hmark := readAt_ok_getD raw offset mark hm
          have hspace := readAt_ok_getD raw (offset + 1) space hs
          by_cases hz : mark = 0
          · simp [hm, hs, hz, udiv, bind, Except.bind] at h
          · simp only [hm, hs, udiv, if_neg hz, bind, Except.bind] at h
            by_cases hmatch : env.MATCH_MARK ((space + mark) % 2 ^ env.uintBits)
                MAGIQUEST_PERIOD = true
            · simp only [hmatch, if_true] at h
              have hbits : classifiedBits raw offset (n + 1)
                  = decide (¬ space / mark > 1) :: classifiedBits raw (offset + 2) n := by
                simp only [classifiedBits, hmark, hspace]
              have hpow : 2 ^ (n + 1) = 2 * 2 ^ n := by ring
              by_cases hratio : space / mark > 1
              · rw [if_pos hratio, shift_zero acc h2acc] at h
                obtain ⟨ho, hl⟩ := ih fuel (offset + 2) (2 * acc) (k + 1) o l (by omega)
                  (by omega) (by omega) h
                refine ⟨by omega, ?_⟩
                rw [hl, hbits]
                simp only [bitsValue, hratio, not_true_eq_false, decide_False, Bool.toNat_false,
                  Nat.zero_mul, Nat.zero_add, hpow]
                ring
              · rw [if_neg hratio, shift_or_one acc h2acc] at h
                obtain ⟨ho, hl⟩ := ih fuel (offset + 2) (2 * acc + 1) (k + 1) o l (by omega)
                  (by omega) (by omega) h
                refine ⟨by omega, ?_⟩
                rw [hl, hbits]
                simp only [bitsValue, hratio, not_false_eq_true, decide_True, Bool.toNat_true,
                  Nat.one_mul, length_classifiedBits, hpow]
                ring
            · simp [hmatch] at h

/-- What an accepting call of `decodeMagiQuest` has done: the capture has 102 entries, the loop
has run to the end, and the two result fields are the union members of its `llword`. -/
theorem decodeMagiQuest_accepts (env : Env) (s t : IRrecv)
    (h : decodeMagiQuest env s = .ok (true, t)) :
    s.rawlen = 102 ∧ ∃ o l, decodeMagiQuestLoop env s.rawbuf 102 102 1 0 = .ok (some (o, l))
      ∧ t.value = magiquest_t.wand_id env l ∧ t.magnitude = magiquest_t.magnitude l := by
  unfold decodeMagiQuest at h
  by_cases hlen : s.rawlen = 102
  · refine ⟨hlen, ?_⟩
    rw [if_neg (by simp [hlen, MAGIQUEST_BITS, MAGIQUEST_MAGNITUDE_BITS,
      MAGIQUEST_WAND_ID_BITS]), hlen] at h
    cases hloop : decodeMagiQuestLoop env s.rawbuf 102 102 1 0 with
    | error e => simp [hloop, bind, Except.bind] at h
    | ok r =>
      cases r with
      | none => simp [hloop, bind, Except.bind] at h
      | some p =>
        obtain ⟨o, l⟩ := p
        simp only [hloop, bind, Except.bind, Except.ok.injEq, Prod.mk.injEq, true_and] at h
        exact ⟨o, l, rfl, by rw [← h], by rw [← h]⟩
  · rw [if_pos (by simp [hlen, MAGIQUEST_BITS, MAGIQUEST_MAGNITUDE_BITS,
      MAGIQUEST_WAND_ID_BITS])] at h
    simp at h

/-- The fields of an accepted capture in terms of its classified bits: the union members of
the 50-bit number the bits form, whatever the layout of the union. -/
theorem decodeMagiQuest_fields (env : Env) (s t : IRrecv)
    (h : decodeMagiQuest env s = .ok (true, t)) :
    t.value = magiquest_t.wand_id env (bitsValue (classifiedBits s.rawbuf 1 50))
      ∧ t.magnitude = bitsValue (classifiedBits s.rawbuf 1 50) % 2 ^ 16 := by
  obtain ⟨_, o, l, hloop, hv, hm⟩ := decodeMagiQuest_accepts env s t h
  obtain ⟨_, hl⟩ := decodeMagiQuestLoop_some env s.rawbuf 102 50 102 1 0 0 o l (by norm_num)
    (by norm_num) (by norm_num) hloop
  rw [Nat.zero_mul, Nat.zero_add] at hl
  rw [hv, hm, hl]
  exact ⟨rfl, rfl⟩

/-- The classified bits from an offset on depend only on the entries from that offset on. -/
theorem classifiedBits_congr (r1 r2 : List Nat) (m : Nat)
    (hsame : ∀ i, m ≤ i → r1.getD i 0 = r2.getD i 0) :
    ∀ (n offset : Nat), m ≤ offset → classifiedBits r1 offset n = classifiedBits r2 offset n := by
  intro n
  induction n with
  | zero => intro offset _; rfl
  | succ n ih =>
    intro offset hoff
    simp only [classifiedBits]
    rw [hsame offset hoff, hsame (offset + 1) (by omega), ih (offset + 2) (by omega)]

/-- The two start bits are shifted out of the 48 bits the union members cover. -/
theorem start_bits_drop (raw : List Nat) :
    (bitsValue (classifiedBits raw 1 50) / 2 ^ 16) % 2 ^ 32
        = bitsValue (classifiedBits raw 5 48) / 2 ^ 16
      ∧ bitsValue (classifiedBits raw 1 50) % 2 ^ 16
        = bitsValue (classifiedBits raw 5 48) % 2 ^ 16 := by
  have hlt := bitsValue_lt (classifiedBits raw 5 48)
  have hlen := length_classifiedBits raw 48 5
  have hunfold : classifiedBits raw 1 50
      = decide (¬ raw.getD 2 0 / raw.getD 1 0 > 1)
        :: decide (¬ raw.getD 4 0 / raw.getD 3 0 > 1) :: classifiedBits raw 5 48 := rfl
  rw [hunfold]
  generalize classifiedBits raw 5 48 = tail at hlt hlen ⊢
  rw [bitsValue, bitsValue, List.length_cons, hlen]
  rw [hlen] at hlt
  have hb0 := Bool.toNat_le (decide (¬ raw.getD 2 0 / raw.getD 1 0 > 1))
  have hb1 := Bool.toNat_le (decide (¬ raw.getD 4 0 / raw.getD 3 0 > 1))
  generalize (decide (¬ raw.getD 2 0 / raw.getD 1 0 > 1)).toNat = b0 at hb0 ⊢
  generalize (decide (¬ raw.getD 4 0 / raw.getD 3 0 > 1)).toNat = b1 at hb1 ⊢
  generalize bitsValue tail = y at hlt ⊢
  norm_num at hlt ⊢
  omega

/-- Accumulate-then-truncate where the members of the union lie without padding (`uint32_t`
aligned to 1 or 2 bytes, as on AVR): on a successful decode, with `acc` the 50-bit number
formed from the classified bits in reading order (first pair the most significant bit; bit 0
when `space / mark > 1`, bit 1 otherwise), `results.value = (acc / 2^16) mod 2^32` and
`results.magnitude = acc mod 2^16`; so two accepted captures that differ only in their first
two pairs (raw entries 1..4) decode to the same value and magnitude. -/
theorem magiquest_accumulate_then_truncate (env : Env) (s1 s2 t1 t2 : IRrecv)
    (hlayout : env.uint32Align = 1 ∨ env.uint32Align = 2)
    (h1 : decodeMagiQuest env s1 = .ok (true, t1))
    (h2 : decodeMagiQuest env s2 = .ok (true, t2))
    (hsame : ∀ i, 5 ≤ i → s1.rawbuf.getD i 0 = s2.rawbuf.getD i 0) :
    t1.value = (bitsValue (classifiedBits s1.rawbuf 1 50) / 2 ^ 16) % 2 ^ 32
      ∧ t1.magnitude = bitsValue (classifiedBits s1.rawbuf 1 50) % 2 ^ 16
      ∧ t1.value = t2.value ∧ t1.magnitude = t2.magnitude := by
  obtain ⟨hv1, hm1⟩ := decodeMagiQuest_fields env s1 t1 h1
  obtain ⟨hv2, hm2⟩ := decodeMagiQuest_fields env s2 t2 h2
  rw [wand_id_unpadded env hlayout] at hv1 hv2
  refine ⟨hv1, hm1, ?_, ?_⟩
  · rw [hv1, hv2, (start_bits_drop s1.rawbuf).1, (start_bits_drop s2.rawbuf).1,
      classifiedBits_congr s1.rawbuf s2.rawbuf 5 hsame 48 5 (Nat.le_refl 5)]
  · rw [hm1, hm2, (start_bits_drop s1.rawbuf).2, (start_bits_drop s2.rawbuf).2,
      classifiedBits_congr s1.rawbuf s2.rawbuf 5 hsame 48 5 (Nat.le_refl 5)]

/-- With `uint32_t` aligned to 4 bytes the member `wand_id` starts at bit 32 of `llword`: on
a successful decode `results.value` is the 50-bit number of the classified bits without its
low 32 bits, the two start bits included. -/
theorem decodeMagiQuest_value_aligned (env : Env) (s t : IRrecv)
    (hlayout : env.uint32Align = 4) (h : decodeMagiQuest env s = .ok (true, t)) :
    t.value = bitsValue (classifiedBits s.rawbuf 1 50) / 2 ^ 32 := by
  obtain ⟨hv, _⟩ := decodeMagiQuest_fields env s t h
  rw [wand_id_aligned env hlayout] at hv
  have hlt := bitsValue_lt (classifiedBits s.rawbuf 1 50)
  rw [length_classifiedBits] at hlt
  rw [hv]
  apply Nat.mod_eq_of_lt
  generalize bitsValue (classifiedBits s.rawbuf 1 50) = y at hlt ⊢
  norm_num at hlt ⊢
  omega

set_option maxRecDepth 100000 in
/-- The theorem at the capture of `sendMagiQuest(0x12345678, 0x9ABC)` and at the same capture
with both start bits received as 1: both decode to wand 0x12345678 and magnitude 0x9ABC. -/
theorem magiquest_accumulate_then_truncate_witness :
    decodeMagiQuest avrEnv wandCapture
        = .ok (true, wandDecoded wandCapture)
      ∧ decodeMagiQuest avrEnv wandCaptureOnes
        = .ok (true, wandDecoded wandCaptureOnes)
      ∧ bitsValue (classifiedBits wandCapture.rawbuf 1 50) = 0x123456789ABC
      ∧ bitsValue (classifiedBits wandCaptureOnes.rawbuf 1 50) = 3 * 2 ^ 48 + 0x123456789ABC
      ∧ (0x12345678 = (bitsValue (classifiedBits wandCapture.rawbuf 1 50) / 2 ^ 16) % 2 ^ 32
        ∧ 0x9ABC = bitsValue (classifiedBits wandCapture.rawbuf 1 50) % 2 ^ 16
        ∧ 0x12345678 = 0x12345678 ∧ 0x9ABC = 0x9ABC) :=
  ⟨by decide, by decide, by decide, by decide,
    magiquest_accumulate_then_truncate avrEnv wandCapture wandCaptureOnes
      (wandDecoded wandCapture)
      (wandDecoded wandCaptureOnes)
      (Or.inl rfl) (by decide) (by decide)
      (by
        intro i hi
        obtain ⟨j, rfl⟩ : ∃ j, i = j + 5 := ⟨i - 5, by omega⟩
        show ([1000, 5, 17, 5, 17] ++ wandTail).getD (j + 5) 0
          = ([1000, 11, 11, 11, 11] ++ wandTail).getD (j + 5) 0
        simp only [List.cons_append, List.nil_append, List.getD_cons_succ])⟩

/-! ## The period checks when no mark is 0 -/

/-- With every remaining mark different from 0 the loop returns, and it runs to the end
exactly when every remaining pair satisfies the period check. -/
theorem decodeMagiQuestLoop_period_checks (env : Env) (raw : List Nat) (rawlen : Nat)
    (hbuf : rawlen ≤ raw.length) :
    ∀ (n fuel offset acc : Nat), offset + 2 * n + 1 = rawlen → n ≤ fuel →
      (∀ j, j < n → raw.getD (offset + 2 * j) 0 ≠ 0) →
      ∃ r, decodeMagiQuestLoop env raw rawlen fuel offset acc = .ok r
        ∧ (r.isSome = true ↔ ∀ j, j < n →
            env.MATCH_MARK ((raw.getD (offset + 2 * j + 1) 0 + raw.getD (offset + 2 * j) 0)
              % 2 ^ env.uintBits) MAGIQUEST_PERIOD = true) := by
  intro n
  induction n with
  | zero =>
    intro fuel offset acc hlen _ _
    refine ⟨some (offset, acc), decodeMagiQuestLoop_done env raw rawlen fuel offset acc
      (by omega), ?_⟩
    simp
  | succ n ih =>
    intro fuel offset acc hlen hfuel hmarks
    cases fuel with
    | zero => omega
    | succ fuel =>
      have hm := readAt_of_lt raw offset (by omega)
      have hs := readAt_of_lt raw (offset + 1) (by omega)
      have hz : raw.getD offset 0 ≠ 0 := by simpa using hmarks 0 (by omega)
      have hrest : ∀ j, j < n → raw.getD (offset + 2 + 2 * j) 0 ≠ 0 := by
        intro j hj
        have := hmarks (j + 1) (by omega)
        rwa [show offset + 2 * (j + 1) = offset + 2 + 2 * j by omega] at this
      rw [decodeMagiQuestLoop, if_pos (by omega)]
      simp only [hm, hs, udiv, if_neg hz, bind, Except.bind]
      by_cases hmatch : env.MATCH_MARK ((raw.getD (offset + 1) 0 + raw.getD offset 0)
          % 2 ^ env.uintBits) MAGIQUEST_PERIOD = true
      · have hiff : (∀ j, j < n + 1 →
            env.MATCH_MARK ((raw.getD (offset + 2 * j + 1) 0 + raw.getD (offset + 2 * j) 0)
              % 2 ^ env.uintBits) MAGIQUEST_PERIOD = true)
            ↔ ∀ j, j < n →
            env.MATCH_MARK ((raw.getD (offset + 2 + 2 * j + 1) 0
              + raw.getD (offset + 2 + 2 * j) 0) % 2 ^ env.uintBits) MAGIQUEST_PERIOD = true := by
          constructor
          · intro h j hj
            have := h (j + 1) (by omega)
            rwa [show offset + 2 * (j + 1) = offset + 2 + 2 * j by omega] at this
          · intro h j hj
            cases j with
            | zero => simpa using hmatch
            | succ j =>
              have := h j (by omega)
              rwa [show offset + 2 + 2 * j = offset + 2 * (j + 1) by omega] at this
        simp only [hmatch, if_true]
        rw [hiff]
        by_cases hratio : raw.getD (offset + 1) 0 / raw.getD offset 0 > 1
        · rw [if_pos hratio]
          exact ih fuel (offset + 2) _ (by omega) (by omega) hrest
        · rw [if_neg hratio]
          exact ih fuel (offset + 2) _ (by omega) (by omega) hrest
      · refine ⟨none, by rw [if_neg hmatch], ?_⟩
        constructor
        · intro h
          simp at h
        · intro h
          exact absurd (by simpa using h 0 (by omega)) hmatch

/-- Away from marks of 0 ticks the acceptance is decided by the period checks: for a capture of
102 entries whose 50 marks (raw indices 2k+1) are all different from 0, `decodeMagiQuest`
returns, and returns `true` exactly when each of the 50 pairs satisfies
`MATCH_MARK(mark + space, 1150)`. -/
theorem decodeMagiQuest_period_checks (env : Env) (s : IRrecv) (hlen : s.rawlen = 102)
    (hbuf : 102 ≤ s.rawbuf.length)
    (hmarks : ∀ k, k < 50 → s.rawbuf.getD (2 * k + 1) 0 ≠ 0) :
    ∃ b t, decodeMagiQuest env s = .ok (b, t)
      ∧ (b = true ↔ ∀ k, k < 50 →
          env.MATCH_MARK ((s.rawbuf.getD (2 * k + 2) 0 + s.rawbuf.getD (2 * k + 1) 0)
            % 2 ^ env.uintBits) MAGIQUEST_PERIOD = true) := by
  obtain ⟨r, hloop, hiff⟩ := decodeMagiQuestLoop_period_checks env s.rawbuf 102 hbuf 50 102 1 0
    (by norm_num) (by norm_num)
    (by
      intro j hj
      rw [Nat.add_comm]
      exact hmarks j hj)
  have hiff2 : (r.isSome = true ↔ ∀ k, k < 50 →
      env.MATCH_MARK ((s.rawbuf.getD (2 * k + 2) 0 + s.rawbuf.getD (2 * k + 1) 0)
        % 2 ^ env.uintBits) MAGIQUEST_PERIOD = true) := by
    rw [hiff]
    constructor
    · intro h k hk
      have := h k hk
      rwa [show 1 + 2 * k + 1 = 2 * k + 2 by omega, show 1 + 2 * k = 2 * k + 1 by omega] at this
    · intro h k hk
      have := h k hk
      rwa [show 2 * k + 2 = 1 + 2 * k + 1 by omega, show 2 * k + 1 = 1 + 2 * k by omega] at this
  unfold decodeMagiQuest
  rw [if_neg (by simp [hlen, MAGIQUEST_BITS, MAGIQUEST_MAGNITUDE_BITS, MAGIQUEST_WAND_ID_BITS]),
    hlen, hloop]
  cases r with
  | none => exact ⟨false, s, rfl, by simpa using hiff2⟩
  | some p => exact ⟨true, _, rfl, by simpa using hiff2⟩

/-! ## The code at the inputs where the layout of the union and the width of `unsigned int`
decide -/

set_option maxRecDepth 100000 in
/-- C1 (the code at the failing input). On a target that aligns `uint32_t` to 4 bytes the
member `wand_id` lies at byte offset 4 of the union: the capture of
`sendMagiQuest(0x12345678, 0x9ABC)` is accepted, and `decodeMagiQuest` returns
`results.value = 0x1234`, the upper 16 bits of the wand id, instead of `0x12345678`;
`results.magnitude` is `0x9ABC`. -/
theorem magiquest_round_trip_aligned_wand_id :
    armEnv.uint32Align = 4 ∧ magiquest_t.wand_id_offset armEnv = 4
      ∧ (rawOfPulses armEnv 1000 (sendMagiQuest 0x12345678 0x9ABC)).length = 102
      ∧ decodeMagiQuest armEnv
          { IRrecv.empty with
            rawbuf := rawOfPulses armEnv 1000 (sendMagiQuest 0x12345678 0x9ABC)
            rawlen := 102 }
        = .ok (true,
          { IRrecv.empty with
            rawbuf := rawOfPulses armEnv 1000 (sendMagiQuest 0x12345678 0x9ABC)
            rawlen := 102
            value := 0x1234
            magnitude := 0x9ABC
            protocol := decode_type_t.MAGIQUEST
            numberOfBits := 50
            flags := armEnv.IRDATA_FLAGS_IS_OLD_DECODER }) := by
  decide

set_option maxRecDepth 100000 in
/-- C15 (the code at the failing input). On a target that aligns `uint32_t` to 4 bytes the
two start bits reach `results.value`: the capture of `sendMagiQuest(0x12345678, 0x9ABC)`
decodes to value `0x1234`, the same capture with both start bits received as 1 to value
`0x31234`, while `(acc / 2^16) mod 2^32` is `0x12345678` for both. -/
theorem magiquest_start_bits_reach_value_aligned :
    armEnv.uint32Align = 4
      ∧ bitsValue (classifiedBits wandCapture.rawbuf 1 50) = 0x123456789ABC
      ∧ bitsValue (classifiedBits wandCaptureOnes.rawbuf 1 50) = 3 * 2 ^ 48 + 0x123456789ABC
      ∧ (bitsValue (classifiedBits wandCapture.rawbuf 1 50) / 2 ^ 16) % 2 ^ 32 = 0x12345678
      ∧ (bitsValue (classifiedBits wandCaptureOnes.rawbuf 1 50) / 2 ^ 16) % 2 ^ 32 = 0x12345678
      ∧ decodeMagiQuest armEnv wandCapture
        = .ok (true, { wandDecoded wandCapture with value := 0x1234 })
      ∧ decodeMagiQuest armEnv wandCaptureOnes
        = .ok (true, { wandDecoded wandCaptureOnes with value := 0x31234 }) := by
  decide

set_option maxRecDepth 100000 in
/-- C4 (the code at the failing input). On a 16-bit `unsigned int` the product `2 * data[2]`
wraps: for the six elements `0100 006D 8001 0000 0010 0020` the declared size
`4 + 2*0x8001 + 2*0` is 65542 and differs from the size 6, but the code computes
`intros = 2`, finds `4 + 2 + 0 = 6` and transmits the first duration. -/
theorem sendPronto_accepts_wrapped_size :
    4 + 2 * 0x8001 + 2 * 0x0000 ≠ [0x0100, 0x006D, 0x8001, 0x0000, 0x0010, 0x0020].length
      ∧ (2 * 0x8001) % 2 ^ avrEnv.uintBits = 2
      ∧ sendPronto avrEnv [0x0100, 0x006D, 0x8001, 0x0000, 0x0010, 0x0020] 6 0
        = ⟨[Event.sendRaw [416] 0], none⟩ := by
  decide

end IRremote
